import Mathlib

/-!
# Verification of the prompt-library data engine

A shallow embedding of the Rust data engine in `src/src-tauri/src/lib.rs`
(a Tauri/SQLite prompt library).  The database is modelled as an explicit
`Store` value; each SQL statement becomes a pure transformation of that
value.  Conventions:

* SQLite `TEXT` columns are Lean `String`s; SQLite's BINARY collation on
  UTF-8 text agrees with the code-point lexicographic order on `String`.
* `f64` score averages are modelled as exact rationals (`ℚ`); the claims
  under scrutiny only involve values on which `f64` arithmetic is exact.
* `i64` counters and ratings are `Int`; row ids are `Nat` (AUTOINCREMENT
  ids are positive and increasing).
* The `tags` column stores the JSON array `encode_tags tags`; rows keep
  the decoded `List String` (every write goes through `encode_tags`, and
  serde's decode inverts it), while the SQL `LIKE` filters are applied to
  the encoded blob, exactly as in the source.
* Timestamps produced by `now_iso()` are passed in as explicit `String`
  arguments (one instant per call site where the distinction matters).
* Fallible SQL statements outside any transaction commit one by one
  (autocommit); `import_prompts_json` runs inside a single transaction
  which rolls back wholesale on error, mirroring `rusqlite::Transaction`.
  Statement-level storage failures are modelled by an oracle
  `ok : Nat → Bool` consulted once per executed write statement, in
  execution order.  `PRAGMA foreign_keys = ON` is issued on every
  connection, so an insert of a child row whose `prompt_id` has no
  matching prompt fails with a foreign-key constraint error.
-/

/-- Whitespace for trimming purposes (ASCII; Rust's `char::is_whitespace`
also covers exotic Unicode whitespace, which none of the claims involve). -/
def isWs (c : Char) : Bool :=
  c = ' ' || c = Char.ofNat 9 || c = Char.ofNat 10 || c = Char.ofNat 11 ||
    c = Char.ofNat 12 || c = Char.ofNat 13

/-- Rust `str::trim` / the trimming used throughout the engine. -/
def rtrim (s : String) : String :=
  ⟨((s.data.dropWhile isWs).reverse.dropWhile isWs).reverse⟩

/-- Rust `str::to_lowercase` restricted to ASCII (they agree on every
string the claims involve). -/
def lowerString (s : String) : String := ⟨s.data.map Char.toLower⟩

/-- `normalize_tags` from the source: trim each tag, drop empties,
dedicate by lower-cased key keeping first-seen casing and order.  The
`seen` accumulator holds the lower-cased keys already emitted. -/
def normalizeTagsAux : List String → List String → List String
  | [], _ => []
  | tag :: rest, seen =>
    let trimmed := rtrim tag
    if trimmed = "" then normalizeTagsAux rest seen
    else
      let key := lowerString trimmed
      if key ∈ seen then normalizeTagsAux rest seen
      else trimmed :: normalizeTagsAux rest (key :: seen)

def normalize_tags (tags : List String) : List String := normalizeTagsAux tags []

/-- One hexadecimal digit, for JSON `\u00XX` escapes. -/
def hexDigit (n : Nat) : Char :=
  if n < 10 then Char.ofNat (48 + n) else Char.ofNat (87 + n)

/-- serde_json's escaping of one character inside a JSON string. -/
def escapeJsonChar (c : Char) : List Char :=
  if c = '"' then ['\\', '"']
  else if c = '\\' then ['\\', '\\']
  else if c = Char.ofNat 8 then ['\\', 'b']
  else if c = Char.ofNat 9 then ['\\', 't']
  else if c = Char.ofNat 10 then ['\\', 'n']
  else if c = Char.ofNat 12 then ['\\', 'f']
  else if c = Char.ofNat 13 then ['\\', 'r']
  else if c.toNat < 32 then
    ['\\', 'u', '0', '0', hexDigit (c.toNat / 16), hexDigit (c.toNat % 16)]
  else [c]

/-- serde_json's rendering of one string, quotes included. -/
def encodeJsonString (s : String) : List Char :=
  '"' :: (s.data.flatMap escapeJsonChar) ++ ['"']

/-- The comma-separated body of the encoded tag array. -/
def tagsBody : List String → List Char
  | [] => []
  | [t] => encodeJsonString t
  | t :: ts => encodeJsonString t ++ ',' :: tagsBody ts

/-- `encode_tags` from the source: `serde_json::to_string` of the tag
vector, a compact JSON array (no whitespace). -/
def encode_tags (tags : List String) : String :=
  ⟨'[' :: tagsBody tags ++ [']']⟩

/-- SQLite `LIKE`'s character folding: ASCII `A`–`Z` fold to `a`–`z`
(byte value + 32), every other character is compared as is. -/
def charFold (c : Char) : Nat :=
  if 65 ≤ c.toNat ∧ c.toNat ≤ 90 then c.toNat + 32 else c.toNat

/-- SQLite `LIKE` compares non-wildcard characters case-insensitively
(ASCII letters only). -/
def likeCharEq (p c : Char) : Bool := charFold p == charFold c

/-- SQLite's `LIKE` matcher (no ESCAPE clause): `%` matches any sequence,
`_` any single character, other characters match ASCII-case-insensitively.
`%` is handled by trying every suffix of the text, which keeps the
recursion structural in the pattern. -/
def likeMatch : List Char → List Char → Bool
  | [], t => t.isEmpty
  | p :: ps, t =>
    if p = '%' then
      t.tails.any (fun suf => likeMatch ps suf)
    else
      match t with
      | [] => false
      | c :: ts => (p = '_' || likeCharEq p c) && likeMatch ps ts

/-! ## Rows and the store -/

structure PromptRow where
  id : Nat
  title : String
  content : String
  tags : List String
  is_favorite : Bool
  score_avg : ℚ
  score_count : Int
  created_at : String
  updated_at : String
deriving Repr, DecidableEq

structure VersionRow where
  id : Nat
  prompt_id : Nat
  content : String
  change_note : String
  created_at : String
deriving Repr, DecidableEq

structure LogRow where
  id : Nat
  prompt_id : Nat
  input_vars : String
  output_text : String
  rating : Option Int
  used_at : String
deriving Repr, DecidableEq

/-- The three tables plus the AUTOINCREMENT counters. -/
structure Store where
  prompts : List PromptRow
  versions : List VersionRow
  logs : List LogRow
  next_prompt_id : Nat
  next_version_id : Nat
  next_log_id : Nat
deriving Repr, DecidableEq

def emptyStore : Store := ⟨[], [], [], 1, 1, 1⟩

/-- `fetch_prompt`: `SELECT ... FROM prompts WHERE id = ?1 LIMIT 1`. -/
def fetch_prompt (s : Store) (id : Nat) : Option PromptRow :=
  s.prompts.find? (fun p => p.id == id)

/-- SQLite's default BINARY collation compares TEXT values bytewise with
memcmp; on UTF-8 data this is code-point lexicographic order, computed
here character by character. -/
def strLt : List Char → List Char → Bool
  | [], [] => false
  | [], _ :: _ => true
  | _ :: _, [] => false
  | a :: as, b :: bs => if a < b then true else if b < a then false else strLt as bs

/-- `a` collates strictly before `b` (BINARY collation). -/
def sLt (a b : String) : Prop := strLt a.data b.data = true

/-- `a` collates no later than `b` (BINARY collation). -/
def sLe (a b : String) : Prop := strLt b.data a.data = false

instance : DecidableRel sLt := fun _ _ => instDecidableEqBool _ _

instance : DecidableRel sLe := fun _ _ => instDecidableEqBool _ _

/-! ## Concrete instances and auxiliary predicates used by the theorems -/

/-- `ORDER BY created_at DESC, id DESC` as a relation (`a` sorts no later
than `b`). -/
def vKeyLe (a b : VersionRow) : Prop :=
  sLt b.created_at a.created_at ∨ (b.created_at = a.created_at ∧ b.id ≤ a.id)

instance : DecidableRel vKeyLe := fun _ _ =>
  @instDecidableOr _ _ (instDecidableEqBool _ _)
    (@instDecidableAnd _ _ (instDecidableEqString _ _) (Nat.decLe _ _))

/-- `fetch_prompt_versions`: the versions of one prompt, newest first
(`ORDER BY created_at DESC, id DESC`). -/
def fetch_prompt_versions (s : Store) (pid : Nat) : List VersionRow :=
  List.insertionSort vKeyLe (s.versions.filter (fun v => v.prompt_id == pid))

/-- `insert_prompt_version`: `INSERT INTO prompt_versions ...`. -/
def insert_prompt_version (s : Store) (pid : Nat) (content note ts : String) : Store :=
  { s with
    versions := s.versions ++ [⟨s.next_version_id, pid, content, note, ts⟩]
    next_version_id := s.next_version_id + 1 }

structure SavePromptInput where
  id : Option Nat
  title : String
  content : String
  tags : List String
  is_favorite : Bool
  change_note : Option String
deriving Repr

def titleEmptyErr : String := "标题不能为空"

def contentEmptyErr : String := "Prompt 内容不能为空"

def promptMissingErr : String := "指定的 Prompt 不存在"

/-- The final `fetch_prompt` read-back of `upsert_prompt` (the store is
returned either way). -/
def readBack (st : Store) (pid : Nat) (e : String) : Store × Except String PromptRow :=
  match fetch_prompt st pid with
  | some p => (st, .ok p)
  | none => (st, .error e)

/-- `upsert_prompt`.  Returns the store after the call together with the
command result.  Statements are modelled on the success path (no claim
about this command involves storage failure). -/
def upsert_prompt (s : Store) (input : SavePromptInput) (now : String) :
    Store × Except String PromptRow :=
  let normalized_title := rtrim input.title
  if normalized_title = "" then (s, .error titleEmptyErr)
  else if rtrim input.content = "" then (s, .error contentEmptyErr)
  else
    let normalized_tags := normalize_tags input.tags
    let note := rtrim ((input.change_note).getD "")
    match input.id with
    | some pid =>
      match fetch_prompt s pid with
      | none => (s, .error promptMissingErr)
      | some old =>
        let s1 : Store :=
          { s with
            prompts := s.prompts.map (fun p =>
              if p.id == pid then
                { p with
                  title := normalized_title
                  content := input.content
                  tags := normalized_tags
                  is_favorite := input.is_favorite
                  updated_at := now }
              else p) }
        let s2 : Store :=
          if old.content ≠ input.content ∨ note ≠ "" then
            insert_prompt_version s1 pid input.content
              (if note = "" then "content updated" else note) now
          else s1
        readBack s2 pid "读取更新后的 Prompt 失败"
    | none =>
      let row : PromptRow :=
        ⟨s.next_prompt_id, normalized_title, input.content, normalized_tags,
          input.is_favorite, 0, 0, now, now⟩
      let s1 : Store :=
        { s with
          prompts := s.prompts ++ [row]
          next_prompt_id := s.next_prompt_id + 1 }
      let initial_note := if note = "" then "initial version" else note
      let s2 := insert_prompt_version s1 row.id input.content initial_note now
      readBack s2 row.id "读取新建 Prompt 失败"

/-- `delete_prompt`; the two child tables cascade. -/
def delete_prompt (s : Store) (id : Nat) : Store :=
  { s with
    prompts := s.prompts.filter (fun p => p.id != id)
    versions := s.versions.filter (fun v => v.prompt_id != id)
    logs := s.logs.filter (fun l => l.prompt_id != id) }

structure LogUsageInput where
  prompt_id : Nat
  input_vars : String
  output_text : String
  rating : Option Int
deriving Repr

def ratingRangeErr : String := "评分范围必须在 1 到 5 之间"

def logNotFoundErr : String := "记录使用日志失败：Prompt 不存在"

/-- SQLite's error for a violated child-key constraint. -/
def fkViolationErr : String := "FOREIGN KEY constraint failed"

/-- Stand-in message for an engine/IO failure injected by the oracle. -/
def storageFailErr : String := "disk I/O error"

def ratingInvalid : Option Int → Bool
  | some r => decide (r < 1) || decide (5 < r)
  | none => false

/-- Replace the score aggregate of one prompt row
(`UPDATE prompts SET score_avg = ?, score_count = ?, updated_at = ?`). -/
def updateScore (s : Store) (pid : Nat) (avg : ℚ) (count : Int) (ts : String) : Store :=
  { s with
    prompts := s.prompts.map (fun p =>
      if p.id == pid then { p with score_avg := avg, score_count := count, updated_at := ts }
      else p) }

/-- `log_prompt_usage`.  The usage-log insert and the score update are two
separate autocommitted statements (the source opens a plain connection, no
transaction): statement 0 is the insert, statement 1 the update.  The
insert fails with a foreign-key violation when the prompt is missing. -/
def log_prompt_usage (s : Store) (input : LogUsageInput) (ok : Nat → Bool)
    (now now2 : String) : Store × Except String Unit :=
  if ratingInvalid input.rating then (s, .error ratingRangeErr)
  else if (fetch_prompt s input.prompt_id).isNone then (s, .error fkViolationErr)
  else if ¬ ok 0 then (s, .error storageFailErr)
  else
    let s1 : Store :=
      { s with
        logs := s.logs ++
          [⟨s.next_log_id, input.prompt_id, input.input_vars, input.output_text,
            input.rating, now⟩]
        next_log_id := s.next_log_id + 1 }
    match input.rating with
    | none => (s1, .ok ())
    | some r =>
      match fetch_prompt s1 input.prompt_id with
      | none => (s1, .error logNotFoundErr)
      | some p =>
        if ¬ ok 1 then (s1, .error storageFailErr)
        else
          let next_count : Int := p.score_count + 1
          let next_avg : ℚ :=
            (p.score_avg * (p.score_count : ℚ) + (r : ℚ)) / ((next_count : ℚ))
          (updateScore s1 input.prompt_id next_avg next_count now2, .ok ())

/-- A present-and-nonempty-after-trim optional parameter. -/
def optParam' (v : Option String) : Option String :=
  match v with
  | none => none
  | some raw =>
    let t := rtrim raw
    if t = "" then none else some t

/-- `title LIKE ? OR content LIKE ? OR tags LIKE ?` with pattern `%term%`. -/
def searchMatches (term : String) (p : PromptRow) : Bool :=
  let pat := ('%' :: term.data) ++ ['%']
  likeMatch pat p.title.data || likeMatch pat p.content.data ||
    likeMatch pat (encode_tags p.tags).data

/-- `tags LIKE ?` with pattern `%"filter"%` against the encoded blob. -/
def tagMatches (t : String) (p : PromptRow) : Bool :=
  likeMatch (('%' :: '"' :: t.data) ++ ['"', '%']) (encode_tags p.tags).data

def promptPasses (search tag : Option String) (p : PromptRow) : Bool :=
  (match search with | none => true | some s => searchMatches s p) &&
  (match tag with | none => true | some t => tagMatches t p)

def scoreOrd (a b : PromptRow) : Prop :=
  b.score_avg < a.score_avg ∨ (b.score_avg = a.score_avg ∧ sLe b.updated_at a.updated_at)

def createdOrd (a b : PromptRow) : Prop := sLe b.created_at a.created_at

def updatedOrd (a b : PromptRow) : Prop := sLe b.updated_at a.updated_at

instance : DecidableRel scoreOrd := fun _ _ =>
  @instDecidableOr _ _ inferInstance
    (@instDecidableAnd _ _ inferInstance (instDecidableEqBool _ _))

instance : DecidableRel createdOrd := fun _ _ => instDecidableEqBool _ _

instance : DecidableRel updatedOrd := fun _ _ => instDecidableEqBool _ _

/-- `list_prompts`: filter by search and tag, order by the selected sort
clause (ties are left unspecified by SQLite; the model fixes one order —
no claim depends on tie order). -/
def list_prompts (s : Store) (search tag sortBy : Option String) : List PromptRow :=
  let filtered := s.prompts.filter (promptPasses (optParam' search) (optParam' tag))
  match sortBy with
  | some "score" => List.insertionSort scoreOrd filtered
  | some "created" => List.insertionSort createdOrd filtered
  | _ => List.insertionSort updatedOrd filtered

structure ExportVersionItem where
  content : String
  change_note : String
  created_at : String
deriving Repr, DecidableEq

structure ExportPromptItem where
  title : String
  content : String
  tags : List String
  is_favorite : Bool
  score_avg : ℚ
  score_count : Int
  versions : List ExportVersionItem
deriving Repr, DecidableEq

/-- `export_prompts_json` minus the final JSON pretty-printing: the list
of exported items, prompts ordered by `updated_at DESC`, each carrying its
full version history in `fetch_prompt_versions` order.  (The `exportedAt`
top-level timestamp carries no information about the store and is
omitted from the model.) -/
def export_prompts (s : Store) : List ExportPromptItem :=
  (List.insertionSort updatedOrd s.prompts).map (fun p =>
    { title := p.title
      content := p.content
      tags := p.tags
      is_favorite := p.is_favorite
      score_avg := p.score_avg
      score_count := p.score_count
      versions := (fetch_prompt_versions s p.id).map
        (fun v => ⟨v.content, v.change_note, v.created_at⟩) })

structure ImportVersionItem where
  content : String
  change_note : Option String
  created_at : Option String
deriving Repr

structure ImportPromptItem where
  title : String
  content : String
  tags : Option (List String)
  is_favorite : Option Bool
  score_avg : Option ℚ
  score_count : Option Int
  versions : Option (List ImportVersionItem)
deriving Repr

/-- The two accepted snapshot shapes (`#[serde(untagged)]`). -/
inductive ImportPayload where
  | wrapped (prompts : List ImportPromptItem)
  | flat (prompts : List ImportPromptItem)

def payloadItems : ImportPayload → List ImportPromptItem
  | .wrapped ps => ps
  | .flat ps => ps

/-- serde round trip of one exported version: serializing an
`ExportVersionItem` and deserializing as `ImportVersionItem` yields every
field present. -/
def exportVersionToImport (v : ExportVersionItem) : ImportVersionItem :=
  ⟨v.content, some v.change_note, some v.created_at⟩

/-- serde round trip of one exported prompt item. -/
def exportPromptToImport (e : ExportPromptItem) : ImportPromptItem :=
  ⟨e.title, e.content, some e.tags, some e.is_favorite, some e.score_avg,
    some e.score_count, some (e.versions.map exportVersionToImport)⟩

/-- The version-insert loop of one imported item, inside the transaction.
`k` is the next statement index for the failure oracle, `flag` the
`inserted_version` accumulator.  Skips versions with blank content. -/
def importVersionsTx (pid : Nat) (ok : Nat → Bool) (now : String) :
    Store → Nat → Bool → List ImportVersionItem → Except String (Store × Nat × Bool)
  | s, k, flag, [] => .ok (s, k, flag)
  | s, k, flag, v :: rest =>
    if rtrim v.content = "" then importVersionsTx pid ok now s k flag rest
    else if ¬ ok k then .error storageFailErr
    else
      importVersionsTx pid ok now
        (insert_prompt_version s pid v.content
          ((v.change_note).getD "imported version") ((v.created_at).getD now))
        (k + 1) true rest

/-- Validation applied to each snapshot item (invalid items are skipped
wholesale). -/
def itemValid (item : ImportPromptItem) : Bool :=
  !(rtrim item.title == "") && !(rtrim item.content == "")

/-- The per-item loop of `import_prompts_json`, running inside the single
transaction.  `count` is the `imported_count` accumulator and `k` the next
statement index. -/
def importItemsTx (ok : Nat → Bool) (now : String) :
    Store → Int → Nat → List ImportPromptItem → Except String (Store × Int)
  | s, count, _, [] => .ok (s, count)
  | s, count, k, item :: rest =>
    if ¬ itemValid item then importItemsTx ok now s count k rest
    else
      let normalized_tags := normalize_tags ((item.tags).getD [])
      let sc : Int := max ((item.score_count).getD 0) 0
      let sa : ℚ := if sc = 0 then 0 else (item.score_avg).getD 0
      if ¬ ok k then .error storageFailErr
      else
        let pid := s.next_prompt_id
        let row : PromptRow :=
          ⟨pid, rtrim item.title, item.content, normalized_tags,
            (item.is_favorite).getD false, sa, sc, now, now⟩
        let s1 : Store :=
          { s with prompts := s.prompts ++ [row], next_prompt_id := pid + 1 }
        match importVersionsTx pid ok now s1 (k + 1) false ((item.versions).getD []) with
        | .error e => .error e
        | .ok (s2, k2, inserted) =>
          if inserted then importItemsTx ok now s2 (count + 1) k2 rest
          else if ¬ ok k2 then .error storageFailErr
          else
            importItemsTx ok now
              (insert_prompt_version s2 pid item.content "imported" now)
              (count + 1) (k2 + 1) rest

/-- `import_prompts_json`: run the whole batch in one transaction; on any
statement failure the transaction is dropped and rolled back, leaving the
store untouched; on success it commits and reports `imported_count`. -/
def import_prompts_json (s : Store) (payload : ImportPayload) (ok : Nat → Bool)
    (now : String) : Store × Except String Int :=
  match importItemsTx ok now s 0 0 (payloadItems payload) with
  | .ok (s', n) => (s', .ok n)
  | .error e => (s, .error e)

/-- The all-statements-succeed oracle. -/
def allOk : Nat → Bool := fun _ => true

/-- C7 witness: a fresh prompt rated 4 then 2 ends at count 2,
average exactly 3. -/
def c7Store : Store :=
  ⟨[⟨1, "t", "c", [], false, 0, 0, "T0", "T0"⟩], [], [], 2, 1, 1⟩

def c6Store : Store :=
  ⟨[⟨1, "t", "c", [], false, 0, 0, "T0", "T0"⟩], [], [], 2, 1, 1⟩

/-- The update statement fails, the insert succeeds. -/
def c6Oracle : Nat → Bool := fun k => k == 0

/-- The spec's score invariant on every stored prompt row. -/
def ScoreInv (s : Store) : Prop :=
  ∀ p ∈ s.prompts, 0 ≤ p.score_avg ∧ 0 ≤ p.score_count ∧
    (p.score_count = 0 → p.score_avg = 0)

/-- The part of the score invariant that holds unconditionally: a
non-negative count, and a zero average at count zero. -/
def CountInv (s : Store) : Prop :=
  ∀ p ∈ s.prompts, 0 ≤ p.score_count ∧ (p.score_count = 0 → p.score_avg = 0)

/-- The prompt rows a successful import appends, ids numbered from `nid`;
items failing validation contribute nothing. -/
def importedRows (nid : Nat) (now : String) : List ImportPromptItem → List PromptRow
  | [] => []
  | item :: rest =>
    if itemValid item then
      ⟨nid, rtrim item.title, item.content, normalize_tags ((item.tags).getD []),
        (item.is_favorite).getD false,
        (if max ((item.score_count).getD 0) 0 = 0 then 0 else (item.score_avg).getD 0),
        max ((item.score_count).getD 0) 0, now, now⟩ :: importedRows (nid + 1) now rest
    else importedRows nid now rest

def c2Item : ImportPromptItem := ⟨"t", "c", none, none, some (-1), some 1, none⟩

def c5Payload : ImportPayload :=
  .wrapped [⟨"bad", " ", none, none, none, none, none⟩,
    ⟨"good", "text", none, none, none, none, none⟩]

def oneStore : Store :=
  ⟨[⟨1, "t", "c", [], false, 0, 0, "T0", "T0"⟩],
    [⟨1, 1, "c", "initial version", "T0"⟩], [], 2, 2, 1⟩

/-- Pointwise pattern match for a wildcard-free-of-`%` LIKE literal:
`_` matches any character, others ASCII-case-insensitively. -/
def matchChars : List Char → List Char → Bool
  | [], [] => true
  | p :: ps, c :: cs => (p = '_' || likeCharEq p c) && matchChars ps cs
  | _, _ => false

/-- Equality of strings up to SQLite's ASCII case folding. -/
def asciiCaseEq (a b : String) : Prop :=
  a.data.map charFold = b.data.map charFold

/-- Characters that the JSON string encoder passes through verbatim. -/
def cleanTagChar (c : Char) : Prop := c ≠ '"' ∧ c ≠ '\\' ∧ 32 ≤ c.toNat

def cleanTag (t : String) : Prop := ∀ c ∈ t.data, cleanTagChar c

/-- Filter values free of the quote, LIKE wildcards and the separator
comma, for which the blob test is exactly per-tag matching. -/
def cleanFilterChar (c : Char) : Prop := c ≠ '"' ∧ c ≠ '%' ∧ c ≠ '_' ∧ c ≠ ','

def cleanFilter (f : String) : Prop := ∀ c ∈ f.data, cleanFilterChar c

/-- The region of the encoded body following one tag's closing quote. -/
def bodyTail : List String → List Char
  | [] => [']']
  | t2 :: ts2 => ',' :: (tagsBody (t2 :: ts2) ++ [']'])

instance : DecidablePred cleanTagChar := fun c => by
  unfold cleanTagChar; infer_instance

instance (t : String) : Decidable (cleanTag t) := by
  unfold cleanTag; infer_instance

instance : DecidablePred cleanFilterChar := fun c => by
  unfold cleanFilterChar; infer_instance

instance (f : String) : Decidable (cleanFilter f) := by
  unfold cleanFilter; infer_instance

instance (a b : String) : Decidable (asciiCaseEq a b) := by
  unfold asciiCaseEq; infer_instance

def c4Store : Store :=
  ⟨[⟨1, "t", "c", ["AI"], false, 0, 0, "T0", "T0"⟩], [], [], 2, 1, 1⟩

/-- Wiping the store = deleting every prompt; cascade removes the owned
versions and logs. -/
def wipe_store (s : Store) : Store :=
  { s with
    prompts := []
    versions := s.versions.filter (fun v => (fetch_prompt s v.prompt_id).isNone)
    logs := s.logs.filter (fun l => (fetch_prompt s l.prompt_id).isNone) }

/-- The stored-data invariants every reachable store satisfies: titles
are trimmed and non-empty, contents non-blank, tag lists normalized,
versions owned by an existing prompt (foreign keys), version contents
non-blank, and every prompt has at least one version. -/
structure StoreWF (s : Store) : Prop where
  title_trim : ∀ p ∈ s.prompts, rtrim p.title = p.title
  title_ne : ∀ p ∈ s.prompts, p.title ≠ ""
  content_ne : ∀ p ∈ s.prompts, rtrim p.content ≠ ""
  tags_norm : ∀ p ∈ s.prompts, normalize_tags p.tags = p.tags
  ver_owned : ∀ v ∈ s.versions, ∃ p ∈ s.prompts, v.prompt_id = p.id
  ver_content : ∀ v ∈ s.versions, rtrim v.content ≠ ""
  ver_nonempty : ∀ p ∈ s.prompts, s.versions.filter (fun v => v.prompt_id == p.id) ≠ []

/-- No two versions of the same prompt share a `created_at` timestamp. -/
def distinctVersionTimes (s : Store) : Prop :=
  ∀ p ∈ s.prompts,
    ((s.versions.filter (fun v => v.prompt_id == p.id)).map
      (fun v => v.created_at)).Nodup

instance (s : Store) : Decidable (distinctVersionTimes s) := by
  unfold distinctVersionTimes; infer_instance

/-- Everything the round-trip claim says is preserved about one prompt:
title, content, tags, favorite flag, and the version content sequence in
`listVersions` order. -/
def promptSummary (s : Store) (p : PromptRow) :
    String × String × List String × Bool × List String :=
  (p.title, p.content, p.tags, p.is_favorite,
    (fetch_prompt_versions s p.id).map (fun v => v.content))

def storeSummary (s : Store) :
    List (String × String × List String × Bool × List String) :=
  s.prompts.map (promptSummary s)

def exportSummary (e : ExportPromptItem) :
    String × String × List String × Bool × List String :=
  (e.title, e.content, e.tags, e.is_favorite, e.versions.map (fun v => v.content))

/-- The version rows one imported item inserts, ids counting up from
`nv`. -/
def versionRowsOfExport (pid : Nat) : Nat → List ExportVersionItem → List VersionRow
  | _, [] => []
  | nv, v :: rest =>
    ⟨nv, pid, v.content, v.change_note, v.created_at⟩ ::
      versionRowsOfExport pid (nv + 1) rest

/-- The prompt row an imported export item produces. -/
def rowOfExport (pid : Nat) (now : String) (e : ExportPromptItem) : PromptRow :=
  ⟨pid, rtrim e.title, e.content, normalize_tags e.tags, e.is_favorite,
    (if max e.score_count 0 = 0 then 0 else e.score_avg), max e.score_count 0,
    now, now⟩

def exportRows (now : String) : Nat → List ExportPromptItem → List PromptRow
  | _, [] => []
  | pid, e :: rest => rowOfExport pid now e :: exportRows now (pid + 1) rest

def totalVersions : List ExportPromptItem → Nat
  | [] => 0
  | e :: rest => e.versions.length + totalVersions rest

/-- All version rows a reimported snapshot inserts, one block per item. -/
def exportVersionBlocks : Nat → Nat → List ExportPromptItem → List VersionRow
  | _, _, [] => []
  | pid, nv, e :: rest =>
    versionRowsOfExport pid nv e.versions ++
      exportVersionBlocks (pid + 1) (nv + e.versions.length) rest

/-- An export item as produced from a well-formed store. -/
def GoodExportItem (e : ExportPromptItem) : Prop :=
  rtrim e.title = e.title ∧ e.title ≠ "" ∧ rtrim e.content ≠ "" ∧
    normalize_tags e.tags = e.tags ∧ e.versions ≠ [] ∧
    ∀ v ∈ e.versions, rtrim v.content ≠ ""

/-- Strictly descending creation timestamps. -/
def StrictDesc (vs : List ExportVersionItem) : Prop :=
  vs.Pairwise (fun a b => sLt b.created_at a.created_at)

def c3Store : Store :=
  ⟨[⟨1, "t", "c", [], false, 0, 0, "T0", "T0"⟩],
    [⟨1, 1, "x", "n1", "T1"⟩, ⟨2, 1, "y", "n2", "T1"⟩], [], 2, 3, 1⟩

def c3WitnessStore : Store :=
  ⟨[⟨1, "t", "c", [], false, 0, 0, "T0", "T0"⟩],
    [⟨1, 1, "x", "n1", "T1"⟩, ⟨2, 1, "y", "n2", "T2"⟩], [], 2, 3, 1⟩

theorem strLt_irrefl : ∀ l : List Char, strLt l l = false
  | [] => rfl
  | a :: as => by
    unfold strLt
    rw [if_neg (lt_irrefl a), if_neg (lt_irrefl a)]
    exact strLt_irrefl as

theorem strLt_trans : ∀ (a b c : List Char),
    strLt a b = true → strLt b c = true → strLt a c = true
  | [], b, c :: cs, _, _ => rfl
  | [], b, [], h1, h2 => by
    cases b with
    | nil => exact h2
    | cons y ys => exact absurd h2 (by simp [strLt])
  | x :: xs, b, c, h1, h2 => by
    cases b with
    | nil => exact absurd h1 (by simp [strLt])
    | cons y ys =>
      cases c with
      | nil => exact absurd h2 (by simp [strLt])
      | cons z zs =>
        unfold strLt at h1 h2 ⊢
        by_cases hxy : x < y
        · by_cases hyz : y < z
          · rw [if_pos (lt_trans hxy hyz)]
          · by_cases hzy : z < y
            · rw [if_neg hyz, if_pos hzy] at h2
              exact absurd h2 (by simp)
            · have hyez : y = z := le_antisymm (not_lt.mp hzy) (not_lt.mp hyz)
              rw [if_pos (hyez ▸ hxy)]
        · by_cases hyx : y < x
          · rw [if_neg hxy, if_pos hyx] at h1
            exact absurd h1 (by simp)
          · have hxey : x = y := le_antisymm (not_lt.mp hyx) (not_lt.mp hxy)
            rw [if_neg hxy, if_neg hyx] at h1
            by_cases hyz : y < z
            · rw [if_pos (hxey ▸ hyz)]
            · by_cases hzy : z < y
              · rw [if_neg hyz, if_pos hzy] at h2
                exact absurd h2 (by simp)
              · have hyez : y = z := le_antisymm (not_lt.mp hzy) (not_lt.mp hyz)
                rw [if_neg hyz, if_neg hzy] at h2
                rw [if_neg (hyez ▸ hxy), if_neg (hyez ▸ hyx)]
                exact strLt_trans xs ys zs h1 h2

theorem strLt_trichotomy : ∀ (a b : List Char),
    strLt a b = true ∨ a = b ∨ strLt b a = true
  | [], [] => Or.inr (Or.inl rfl)
  | [], _ :: _ => Or.inl rfl
  | _ :: _, [] => Or.inr (Or.inr rfl)
  | x :: xs, y :: ys => by
    rcases lt_trichotomy x y with h | h | h
    · exact Or.inl (by unfold strLt; rw [if_pos h])
    · subst h
      rcases strLt_trichotomy xs ys with h2 | h2 | h2
      · exact Or.inl (by
          unfold strLt; rw [if_neg (lt_irrefl x), if_neg (lt_irrefl x)]; exact h2)
      · exact Or.inr (Or.inl (by rw [h2]))
      · exact Or.inr (Or.inr (by
          unfold strLt; rw [if_neg (lt_irrefl x), if_neg (lt_irrefl x)]; exact h2))
    · exact Or.inr (Or.inr (by unfold strLt; rw [if_pos h]))

theorem sLt_trans {a b c : String} (h1 : sLt a b) (h2 : sLt b c) : sLt a c :=
  strLt_trans _ _ _ h1 h2

theorem sLt_trichotomy (a b : String) : sLt a b ∨ a = b ∨ sLt b a := by
  rcases strLt_trichotomy a.data b.data with h | h | h
  · exact Or.inl h
  · exact Or.inr (Or.inl (by
      cases a; cases b; exact congrArg String.mk h))
  · exact Or.inr (Or.inr h)

theorem vKeyLe_total : IsTotal VersionRow vKeyLe where
  total a b := by
    rcases sLt_trichotomy a.created_at b.created_at with h | h | h
    · exact Or.inr (Or.inl h)
    · rcases le_total b.id a.id with h2 | h2
      · exact Or.inl (Or.inr ⟨h.symm, h2⟩)
      · exact Or.inr (Or.inr ⟨h, h2⟩)
    · exact Or.inl (Or.inl h)

attribute [instance] vKeyLe_total

theorem vKeyLe_trans : IsTrans VersionRow vKeyLe where
  trans a b c hab hbc := by
    rcases hab with h1 | ⟨e1, l1⟩
    · rcases hbc with h2 | ⟨e2, l2⟩
      · exact Or.inl (sLt_trans h2 h1)
      · exact Or.inl (by rw [e2]; exact h1)
    · rcases hbc with h2 | ⟨e2, l2⟩
      · exact Or.inl (by rw [← e1]; exact h2)
      · exact Or.inr ⟨e2.trans e1, le_trans l2 l1⟩

attribute [instance] vKeyLe_trans

/-! ## upsert_prompt -/

/-! ## log_prompt_usage -/

/-! ## list_prompts / list of tags -/

/-! ## Export and import -/

/-! ## Basic facts about the operations -/

theorem readBack_fst (st : Store) (pid : Nat) (e : String) :
    (readBack st pid e).1 = st := by
  unfold readBack
  cases fetch_prompt st pid <;> rfl

theorem fetch_prompt_mem {s : Store} {pid : Nat} {p : PromptRow}
    (h : fetch_prompt s pid = some p) : p ∈ s.prompts :=
  List.mem_of_find?_eq_some h

theorem fetch_prompt_id {s : Store} {pid : Nat} {p : PromptRow}
    (h : fetch_prompt s pid = some p) : p.id = pid := by
  have := List.find?_some h
  simpa using this

/-- `find?` over an id-guarded rewrite of every row finds the rewritten
first match, provided the rewrite keeps ids. -/
theorem find?_update_eq (l : List PromptRow) (pid : Nat) (f : PromptRow → PromptRow)
    (hf : ∀ p, (f p).id = p.id) :
    (l.map (fun p => if p.id == pid then f p else p)).find? (fun p => p.id == pid) =
      (l.find? (fun p => p.id == pid)).map f := by
  induction l with
  | nil => rfl
  | cons q rest ih =>
    rw [List.map_cons]
    by_cases h : q.id = pid
    · have h1 : (q.id == pid) = true := by simpa using h
      have h2 : ((fun x : PromptRow => x.id == pid) (f q)) = true := by simp [hf, h]
      rw [if_pos h1, List.find?_cons_of_pos (p := fun x : PromptRow => x.id == pid) _ h2,
        List.find?_cons_of_pos (p := fun x : PromptRow => x.id == pid) _ h1]
      rfl
    · have h1 : (q.id == pid) = false := by simpa using h
      have h2 : ¬ ((fun x : PromptRow => x.id == pid) q) := by simp [h]
      rw [if_neg (by simp [h] : ¬ (q.id == pid) = true)]
      rw [List.find?_cons_of_neg (p := fun x : PromptRow => x.id == pid) _ h2,
        List.find?_cons_of_neg (p := fun x : PromptRow => x.id == pid) _ h2]
      exact ih

theorem fetch_updateScore {s : Store} {pid : Nat} {p : PromptRow}
    (avg : ℚ) (cnt : Int) (ts : String)
    (hp : fetch_prompt s pid = some p) :
    fetch_prompt (updateScore s pid avg cnt ts) pid =
      some { p with score_avg := avg, score_count := cnt, updated_at := ts } := by
  have h := find?_update_eq s.prompts pid
    (fun q => { q with score_avg := avg, score_count := cnt, updated_at := ts })
    (fun q => rfl)
  show (s.prompts.map (fun q =>
      if q.id == pid then { q with score_avg := avg, score_count := cnt, updated_at := ts }
      else q)).find? (fun q => q.id == pid) = _
  rw [h]
  unfold fetch_prompt at hp
  rw [hp]
  rfl

/-! ## Claim C8 -/

/-- C8: `logUsage` with a rating outside 1–5 (e.g. 0 or 6) fails with the
rating-range `ValidationError` before any write (the store is returned
unchanged); and with the rating absent, the prompt rows — in particular
their `score_avg` and `score_count` fields — are never touched. -/
theorem C8_rating_validation_and_absent (s : Store) (input : LogUsageInput)
    (ok : Nat → Bool) (now now2 : String) :
    (∀ r : Int, input.rating = some r → (r < 1 ∨ 5 < r) →
       log_prompt_usage s input ok now now2 = (s, .error ratingRangeErr)) ∧
    (input.rating = none →
       (log_prompt_usage s input ok now now2).1.prompts = s.prompts) := by
  constructor
  · intro r hr hout
    have hinv : ratingInvalid input.rating = true := by
      rw [hr]; simp [ratingInvalid]; omega
    unfold log_prompt_usage
    rw [hinv]
    simp
  · intro hr
    have hinv : ratingInvalid input.rating = false := by rw [hr]; rfl
    unfold log_prompt_usage
    rw [hinv, hr]
    by_cases hm : (fetch_prompt s input.prompt_id).isNone
    · simp [hm]
    · simp only [hm, Bool.false_eq_true, if_false, if_true]
      by_cases h0 : ok 0
      · simp [h0]
      · simp [h0]

/-! ## Claim C10 -/

/-- C10: with foreign keys enforced on every connection, `logUsage`
against a missing prompt fails even when the rating is absent — the
usage-log insert itself is rejected with a foreign-key violation, the
store is unchanged and no orphan log row is appended. -/
theorem C10_fk_rejects_orphan_log (s : Store) (input : LogUsageInput)
    (ok : Nat → Bool) (now now2 : String)
    (hval : ratingInvalid input.rating = false)
    (hmiss : fetch_prompt s input.prompt_id = none) :
    log_prompt_usage s input ok now now2 = (s, .error fkViolationErr) := by
  unfold log_prompt_usage
  rw [hval, hmiss]
  simp

/-! ## Claim C9 -/

/-- C9: creating a prompt (`upsertPrompt` without an id) whose trimmed
title or trimmed content is empty fails with the corresponding
`ValidationError` and leaves the store completely unchanged. -/
theorem C9_create_validation (s : Store) (input : SavePromptInput) (now : String)
    (_hid : input.id = none)
    (h : rtrim input.title = "" ∨ rtrim input.content = "") :
    (upsert_prompt s input now).1 = s ∧
      ((upsert_prompt s input now).2 = .error titleEmptyErr ∨
        (upsert_prompt s input now).2 = .error contentEmptyErr) := by
  unfold upsert_prompt
  by_cases ht : rtrim input.title = ""
  · simp [ht]
  · rcases h with h | h
    · exact absurd h ht
    · simp [ht, h]

/-- The success path of `log_prompt_usage` with a rating present: the log
row is appended (statement 0) and the score aggregate replaced
(statement 1). -/
theorem log_usage_success (s : Store) (input : LogUsageInput) (ok : Nat → Bool)
    (now now2 : String) (r : Int) (p : PromptRow)
    (hr : input.rating = some r) (hv : ratingInvalid input.rating = false)
    (hp : fetch_prompt s input.prompt_id = some p)
    (h0 : ok 0 = true) (h1 : ok 1 = true) :
    log_prompt_usage s input ok now now2 =
      (updateScore
        { s with
          logs := s.logs ++ [⟨s.next_log_id, input.prompt_id, input.input_vars,
            input.output_text, input.rating, now⟩]
          next_log_id := s.next_log_id + 1 }
        input.prompt_id
        ((p.score_avg * (p.score_count : ℚ) + (r : ℚ)) / (((p.score_count + 1 : Int) : ℚ)))
        (p.score_count + 1) now2, .ok ()) := by
  have hp1 : fetch_prompt
      { s with
        logs := s.logs ++ [⟨s.next_log_id, input.prompt_id, input.input_vars,
          input.output_text, some r, now⟩]
        next_log_id := s.next_log_id + 1 } input.prompt_id = some p := hp
  unfold log_prompt_usage
  rw [hv]
  rw [hp, hr]
  simp only [Option.isNone_some, Bool.false_eq_true, if_false, h0, h1]
  rw [hp1]
  simp [hr]

/-! ## Claim C7 -/

/-- C7: on a successful `logUsage` with a valid rating `r`, the prompt's
aggregate becomes exactly `newAvg = (avg*count + r) / (count+1)`,
`newCount = count + 1`, and `updated_at` is refreshed. -/
theorem C7_incremental_mean (s : Store) (input : LogUsageInput) (ok : Nat → Bool)
    (now now2 : String) (r : Int) (p : PromptRow)
    (hr : input.rating = some r) (hlo : 1 ≤ r) (hhi : r ≤ 5)
    (hp : fetch_prompt s input.prompt_id = some p)
    (h0 : ok 0 = true) (h1 : ok 1 = true) :
    (log_prompt_usage s input ok now now2).2 = .ok () ∧
    fetch_prompt (log_prompt_usage s input ok now now2).1 input.prompt_id =
      some { p with
        score_avg := (p.score_avg * (p.score_count : ℚ) + (r : ℚ)) /
          ((p.score_count : ℚ) + 1)
        score_count := p.score_count + 1
        updated_at := now2 } := by
  have hv : ratingInvalid input.rating = false := by
    rw [hr]; simp [ratingInvalid]; omega
  rw [log_usage_success s input ok now now2 r p hr hv hp h0 h1]
  have hcast : (((p.score_count + 1 : Int) : ℚ)) = (p.score_count : ℚ) + 1 := by
    push_cast; ring
  refine ⟨rfl, ?_⟩
  rw [← hcast]
  exact fetch_updateScore _ _ _ hp

theorem C7_incremental_mean_witness :
    fetch_prompt
      (log_prompt_usage
        (log_prompt_usage c7Store ⟨1, "v", "o", some 4⟩ allOk "T1" "T2").1
        ⟨1, "v", "o", some 2⟩ allOk "T3" "T4").1 1 =
      some ⟨1, "t", "c", [], false, 3, 2, "T0", "T4"⟩ := by
  have s1 := C7_incremental_mean c7Store ⟨1, "v", "o", some 4⟩ allOk "T1" "T2" 4
    ⟨1, "t", "c", [], false, 0, 0, "T0", "T0"⟩ rfl (by omega) (by omega) rfl rfl rfl
  have h1 := s1.2
  norm_num at h1
  have s2 := C7_incremental_mean
    (log_prompt_usage c7Store ⟨1, "v", "o", some 4⟩ allOk "T1" "T2").1
    ⟨1, "v", "o", some 2⟩ allOk "T3" "T4" 2
    ⟨1, "t", "c", [], false, 4, 1, "T0", "T2"⟩ rfl (by omega) (by omega) h1 rfl rfl
  have h2 := s2.2
  norm_num at h2
  exact h2

/-! ## Claim C6 -/

/-- C6 counterexample: the usage-log insert and the score update are two
separate autocommitted statements, not one transaction.  With a storage
failure injected on the score update, the call fails yet the usage-log
row stays committed — "both commit or neither does" is violated. -/
theorem C6_counterexample :
    (log_prompt_usage c6Store ⟨1, "v", "o", some 5⟩ c6Oracle "T1" "T2").2 =
        .error storageFailErr ∧
    (log_prompt_usage c6Store ⟨1, "v", "o", some 5⟩ c6Oracle "T1" "T2").1.logs.length = 1 ∧
    c6Store.logs.length = 0 ∧
    (log_prompt_usage c6Store ⟨1, "v", "o", some 5⟩ c6Oracle "T1" "T2").1.prompts =
      c6Store.prompts := by
  refine ⟨rfl, rfl, rfl, rfl⟩

/-- C6 (amended): when the target prompt is missing, the whole call fails
with the foreign-key constraint error (not the dedicated not-found
message, which is unreachable) and no usage log is left behind; when the
prompt exists and both statements succeed, the log row and the score
update are both applied.  The two statements are separate autocommits, so
a failure of the score update can leave the log row committed (see the
counterexample). -/
theorem C6_log_and_score_commit (s : Store) (input : LogUsageInput) (ok : Nat → Bool)
    (now now2 : String) (r : Int)
    (hr : input.rating = some r) (hlo : 1 ≤ r) (hhi : r ≤ 5) :
    (fetch_prompt s input.prompt_id = none →
        log_prompt_usage s input ok now now2 = (s, .error fkViolationErr)) ∧
    (∀ p, fetch_prompt s input.prompt_id = some p → ok 0 = true → ok 1 = true →
        (log_prompt_usage s input ok now now2).2 = .ok () ∧
        (log_prompt_usage s input ok now now2).1.logs =
          s.logs ++ [⟨s.next_log_id, input.prompt_id, input.input_vars,
            input.output_text, input.rating, now⟩] ∧
        fetch_prompt (log_prompt_usage s input ok now now2).1 input.prompt_id =
          some { p with
            score_avg := (p.score_avg * (p.score_count : ℚ) + (r : ℚ)) /
              ((p.score_count : ℚ) + 1)
            score_count := p.score_count + 1
            updated_at := now2 }) := by
  have hv : ratingInvalid input.rating = false := by
    rw [hr]; simp [ratingInvalid]; omega
  constructor
  · intro hmiss
    unfold log_prompt_usage
    rw [hv, hmiss]
    simp
  · intro p hp h0 h1
    rw [log_usage_success s input ok now now2 r p hr hv hp h0 h1]
    refine ⟨rfl, by rw [hr]; simp [updateScore], ?_⟩
    have hcast : (((p.score_count + 1 : Int) : ℚ)) = (p.score_count : ℚ) + 1 := by
      push_cast; ring
    rw [← hcast]
    exact fetch_updateScore _ _ _ hp

/-! ## Claim C1 -/

/-- C1: updating an existing prompt appends a new version if and only if
the content changed or a (trimmed-)non-empty change note was supplied;
the appended version carries the supplied note, defaulting to
`"content updated"` when none was given; otherwise no version row is
written. -/
theorem C1_update_version_policy (s : Store) (input : SavePromptInput) (now : String)
    (pid : Nat) (old : PromptRow)
    (hid : input.id = some pid)
    (ht : ¬ rtrim input.title = "") (hc : ¬ rtrim input.content = "")
    (hold : fetch_prompt s pid = some old) :
    ((old.content ≠ input.content ∨ rtrim ((input.change_note).getD "") ≠ "") →
        (upsert_prompt s input now).1.versions = s.versions ++
          [⟨s.next_version_id, pid, input.content,
            (if rtrim ((input.change_note).getD "") = "" then "content updated"
              else rtrim ((input.change_note).getD "")), now⟩]) ∧
    ((old.content = input.content ∧ rtrim ((input.change_note).getD "") = "") →
        (upsert_prompt s input now).1.versions = s.versions) := by
  unfold upsert_prompt
  rw [hid]
  simp only [if_neg ht, if_neg hc, hold]
  constructor
  · intro hcond
    rw [if_pos hcond, readBack_fst]
    simp [insert_prompt_version]
  · intro hcond
    rw [if_neg (by push_neg; exact ⟨hcond.1, hcond.2⟩), readBack_fst]

/-! ## Score invariants (C2) -/

/-- The prompt rows after an `upsert_prompt` call: unchanged, rewritten in
place with scores preserved, or extended by a fresh row with zero scores. -/
theorem upsert_prompts_cases (s : Store) (input : SavePromptInput) (now : String) :
    (upsert_prompt s input now).1.prompts = s.prompts ∨
    (∃ pid, (upsert_prompt s input now).1.prompts =
      s.prompts.map (fun p => if p.id == pid then
        { p with
          title := rtrim input.title
          content := input.content
          tags := normalize_tags input.tags
          is_favorite := input.is_favorite
          updated_at := now }
        else p)) ∨
    (upsert_prompt s input now).1.prompts = s.prompts ++
      [⟨s.next_prompt_id, rtrim input.title, input.content, normalize_tags input.tags,
        input.is_favorite, 0, 0, now, now⟩] := by
  unfold upsert_prompt
  by_cases ht : rtrim input.title = ""
  · rw [if_pos ht]; exact Or.inl rfl
  · rw [if_neg ht]
    by_cases hc : rtrim input.content = ""
    · rw [if_pos hc]; exact Or.inl rfl
    · rw [if_neg hc]
      cases hid : input.id with
      | none =>
        dsimp only
        rw [readBack_fst]
        right; right
        simp [insert_prompt_version]
      | some pid =>
        dsimp only
        cases hold : fetch_prompt s pid with
        | none => exact Or.inl rfl
        | some old =>
          dsimp only
          right; left
          refine ⟨pid, ?_⟩
          by_cases hcond : old.content ≠ input.content ∨
              rtrim ((input.change_note).getD "") ≠ ""
          · rw [if_pos hcond, readBack_fst]
            simp [insert_prompt_version]
          · rw [if_neg hcond, readBack_fst]

/-- The prompt rows after a `log_prompt_usage` call: unchanged, or with
one prompt's aggregate replaced by the incremental mean. -/
theorem log_usage_prompts_cases (s : Store) (input : LogUsageInput) (ok : Nat → Bool)
    (now now2 : String) :
    (log_prompt_usage s input ok now now2).1.prompts = s.prompts ∨
    (∃ r p, input.rating = some r ∧ ratingInvalid input.rating = false ∧
      fetch_prompt s input.prompt_id = some p ∧
      (log_prompt_usage s input ok now now2).1.prompts =
        s.prompts.map (fun q => if q.id == input.prompt_id then
          { q with
            score_avg := (p.score_avg * (p.score_count : ℚ) + (r : ℚ)) /
              (((p.score_count + 1 : Int) : ℚ))
            score_count := p.score_count + 1
            updated_at := now2 }
          else q)) := by
  unfold log_prompt_usage
  by_cases hv : ratingInvalid input.rating = true
  · rw [if_pos hv]; exact Or.inl rfl
  · rw [if_neg hv]
    cases hm : fetch_prompt s input.prompt_id with
    | none => exact Or.inl rfl
    | some p =>
      rw [if_neg (by simp : ¬ ((some p).isNone = true))]
      by_cases h0 : ok 0
      · rw [if_neg (by simp [h0])]
        cases hr : input.rating with
        | none => exact Or.inl rfl
        | some r =>
          dsimp only
          have hm1 : fetch_prompt
              { s with
                logs := s.logs ++ [⟨s.next_log_id, input.prompt_id, input.input_vars,
                  input.output_text, some r, now⟩]
                next_log_id := s.next_log_id + 1 } input.prompt_id = some p := hm
          rw [hm1]
          dsimp only
          by_cases h1 : ok 1
          · rw [if_neg (by simp [h1])]
            right
            exact ⟨r, p, rfl, by rw [hr] at hv; simpa using hv, rfl, rfl⟩
          · rw [if_pos (by simp [h1])]
            exact Or.inl rfl
      · rw [if_pos (by simp [h0])]
        exact Or.inl rfl

/-- `log_prompt_usage` preserves the score invariant. -/
theorem log_usage_scoreInv (s : Store) (input : LogUsageInput) (ok : Nat → Bool)
    (now now2 : String) (h : ScoreInv s) :
    ScoreInv (log_prompt_usage s input ok now now2).1 := by
  rcases log_usage_prompts_cases s input ok now now2 with hc | ⟨r, p, hr, hv, hp, hc⟩
  · intro q hq; rw [hc] at hq; exact h q hq
  · intro q hq
    rw [hc] at hq
    rcases List.mem_map.mp hq with ⟨q0, hq0, hq0eq⟩
    by_cases hid : q0.id = input.prompt_id
    · rw [if_pos (by simpa using hid)] at hq0eq
      obtain ⟨ha, hcnt, -⟩ := h p (fetch_prompt_mem hp)
      have hr1 : 1 ≤ r := by
        rw [hr] at hv
        simp [ratingInvalid] at hv
        omega
      subst hq0eq
      dsimp only
      refine ⟨?_, by omega, by intro hz; omega⟩
      apply div_nonneg
      · have hc0 : (0 : ℚ) ≤ (p.score_count : ℚ) := by exact_mod_cast hcnt
        have hr0 : (0 : ℚ) ≤ (r : ℚ) := by
          have : (0 : Int) ≤ r := by omega
          exact_mod_cast this
        exact add_nonneg (mul_nonneg ha hc0) hr0
      · have : (0 : Int) ≤ p.score_count + 1 := by omega
        exact_mod_cast this
    · rw [if_neg (by simpa using hid)] at hq0eq
      subst hq0eq
      exact h q0 hq0

/-- `upsert_prompt` preserves the score invariant. -/
theorem upsert_scoreInv (s : Store) (input : SavePromptInput) (now : String)
    (h : ScoreInv s) : ScoreInv (upsert_prompt s input now).1 := by
  rcases upsert_prompts_cases s input now with hc | ⟨pid, hc⟩ | hc
  · intro q hq; rw [hc] at hq; exact h q hq
  · intro q hq
    rw [hc] at hq
    rcases List.mem_map.mp hq with ⟨q0, hq0, hq0eq⟩
    by_cases hid : q0.id = pid
    · rw [if_pos (by simpa using hid)] at hq0eq
      subst hq0eq
      exact h q0 hq0
    · rw [if_neg (by simpa using hid)] at hq0eq
      subst hq0eq
      exact h q0 hq0
  · intro q hq
    rw [hc] at hq
    rcases List.mem_append.mp hq with hq | hq
    · exact h q hq
    · rcases List.mem_singleton.mp hq with rfl
      exact ⟨le_refl 0, le_refl 0, fun _ => rfl⟩

/-- `log_prompt_usage` preserves the count invariant: the count can only
grow by one, and a row with a positive count is never given count 0. -/
theorem log_usage_countInv (s : Store) (input : LogUsageInput) (ok : Nat → Bool)
    (now now2 : String) (h : CountInv s) :
    CountInv (log_prompt_usage s input ok now now2).1 := by
  rcases log_usage_prompts_cases s input ok now now2 with hc | ⟨r, p, hr, hv, hp, hc⟩
  · intro q hq; rw [hc] at hq; exact h q hq
  · intro q hq
    rw [hc] at hq
    rcases List.mem_map.mp hq with ⟨q0, hq0, hq0eq⟩
    by_cases hid : q0.id = input.prompt_id
    · rw [if_pos (by simpa using hid)] at hq0eq
      obtain ⟨hcnt, -⟩ := h p (fetch_prompt_mem hp)
      subst hq0eq
      dsimp only
      exact ⟨by omega, by intro hz; omega⟩
    · rw [if_neg (by simpa using hid)] at hq0eq
      subst hq0eq
      exact h q0 hq0

/-- `upsert_prompt` preserves the count invariant: update leaves the
score fields alone, create starts at `(0, 0)`. -/
theorem upsert_countInv (s : Store) (input : SavePromptInput) (now : String)
    (h : CountInv s) : CountInv (upsert_prompt s input now).1 := by
  rcases upsert_prompts_cases s input now with hc | ⟨pid, hc⟩ | hc
  · intro q hq; rw [hc] at hq; exact h q hq
  · intro q hq
    rw [hc] at hq
    rcases List.mem_map.mp hq with ⟨q0, hq0, hq0eq⟩
    by_cases hid : q0.id = pid
    · rw [if_pos (by simpa using hid)] at hq0eq
      subst hq0eq
      exact h q0 hq0
    · rw [if_neg (by simpa using hid)] at hq0eq
      subst hq0eq
      exact h q0 hq0
  · intro q hq
    rw [hc] at hq
    rcases List.mem_append.mp hq with hq | hq
    · exact h q hq
    · rcases List.mem_singleton.mp hq with rfl
      exact ⟨le_refl 0, fun _ => rfl⟩

/-! ## Import loop characterization -/

theorem insert_version_prompts (st : Store) (a : Nat) (b c d : String) :
    (insert_prompt_version st a b c d).prompts = st.prompts := rfl

theorem insert_version_next_prompt (st : Store) (a : Nat) (b c d : String) :
    (insert_prompt_version st a b c d).next_prompt_id = st.next_prompt_id := rfl

/-- The version-insert loop never touches the prompts table, the prompt
counter or the logs. -/
theorem importVersionsTx_ok (pid : Nat) (ok : Nat → Bool) (now : String) :
    ∀ (vs : List ImportVersionItem) (s : Store) (k : Nat) (flag : Bool)
      (s2 : Store) (k2 : Nat) (fl : Bool),
      importVersionsTx pid ok now s k flag vs = .ok (s2, k2, fl) →
      s2.prompts = s.prompts ∧ s2.next_prompt_id = s.next_prompt_id ∧
        s2.logs = s.logs := by
  intro vs
  induction vs with
  | nil =>
    intro s k flag s2 k2 fl h
    cases h
    exact ⟨rfl, rfl, rfl⟩
  | cons v rest ih =>
    intro s k flag s2 k2 fl h
    unfold importVersionsTx at h
    split at h
    · exact ih _ _ _ _ _ _ h
    · split at h
      · exact Except.noConfusion h
      · have h3 := ih _ _ _ _ _ _ h
        exact ⟨h3.1, h3.2.1, h3.2.2⟩

/-- The per-item import loop, on success: the final count adds one per
valid item, and the prompts table is extended by exactly the valid items'
rows, in order. -/
theorem importItemsTx_ok (ok : Nat → Bool) (now : String) :
    ∀ (items : List ImportPromptItem) (s : Store) (count : Int) (k : Nat)
      (s' : Store) (n : Int),
      importItemsTx ok now s count k items = .ok (s', n) →
      n = count + (((items.filter itemValid).length : Nat) : Int) ∧
      s'.prompts = s.prompts ++ importedRows s.next_prompt_id now items := by
  intro items
  induction items with
  | nil =>
    intro s count k s' n h
    cases h
    simp [importedRows]
  | cons item rest ih =>
    intro s count k s' n h
    unfold importItemsTx at h
    split at h
    · rename_i hskip
      have hinv : itemValid item = false := by
        by_cases hb : itemValid item
        · exact absurd hb hskip
        · simpa using hb
      obtain ⟨h1, h2⟩ := ih _ _ _ _ _ h
      refine ⟨?_, ?_⟩
      · rw [h1]; simp [hinv]
      · rw [h2]; simp [importedRows, hinv]
    · rename_i hval
      have hv : itemValid item = true := by
        by_cases hb : itemValid item
        · exact hb
        · exact absurd (by simpa using hb) hval
      split at h
      · exact Except.noConfusion h
      · dsimp only at h
        split at h
        · exact Except.noConfusion h
        · rename_i heq
          obtain ⟨hp2, hn2, -⟩ := importVersionsTx_ok _ _ _ _ _ _ _ _ _ _ heq
          split at h
          · obtain ⟨h1, h2⟩ := ih _ _ _ _ _ h
            refine ⟨?_, ?_⟩
            · rw [h1]; simp [hv]; ring
            · rw [h2, hp2, hn2]
              simp [importedRows, hv]
          · split at h
            · exact Except.noConfusion h
            · obtain ⟨h1, h2⟩ := ih _ _ _ _ _ h
              refine ⟨?_, ?_⟩
              · rw [h1]; simp [hv]; ring
              · rw [h2, insert_version_prompts, insert_version_next_prompt, hp2, hn2]
                simp [importedRows, hv]

/-! ## Claim C5 -/

/-- C5: the snapshot import is one transaction.  On success, every item
whose trimmed title and content are non-empty is inserted (in order,
with fresh ids) and the returned count equals the number of inserted
items; invalid items are skipped and leave no trace.  On any
underlying storage failure the whole batch rolls back: the store is
unchanged. -/
theorem C5_import_transaction (s : Store) (payload : ImportPayload) (ok : Nat → Bool)
    (now : String) :
    (∀ s' n, import_prompts_json s payload ok now = (s', .ok n) →
        n = (((payloadItems payload).filter itemValid).length : Int) ∧
        s'.prompts = s.prompts ++ importedRows s.next_prompt_id now (payloadItems payload)) ∧
    (∀ e, (import_prompts_json s payload ok now).2 = .error e →
        (import_prompts_json s payload ok now).1 = s) := by
  unfold import_prompts_json
  cases himp : importItemsTx ok now s 0 0 (payloadItems payload) with
  | ok pr =>
    obtain ⟨s1, n1⟩ := pr
    obtain ⟨h3, h4⟩ := importItemsTx_ok ok now (payloadItems payload) s 0 0 s1 n1 himp
    constructor
    · intro s' n hout
      dsimp only at hout
      injection hout with hA hB
      injection hB with hB
      subst hA
      subst hB
      exact ⟨by simpa using h3, h4⟩
    · intro e hout
      dsimp only at hout
      exact Except.noConfusion hout
  | error e =>
    constructor
    · intro s' n hout
      dsimp only at hout
      injection hout with hA hB
      exact Except.noConfusion hB
    · intro e2 hout
      rfl

/-- Rows produced by `importedRows` satisfy the score invariant provided
the snapshot's supplied averages are non-negative. -/
theorem importedRows_scoreInv (now : String) :
    ∀ (items : List ImportPromptItem) (nid : Nat),
      (∀ item ∈ items, ∀ a : ℚ, item.score_avg = some a → 0 ≤ a) →
      ∀ q ∈ importedRows nid now items,
        0 ≤ q.score_avg ∧ 0 ≤ q.score_count ∧ (q.score_count = 0 → q.score_avg = 0) := by
  intro items
  induction items with
  | nil => intro nid h q hq; simp [importedRows] at hq
  | cons item rest ih =>
    intro nid h q hq
    unfold importedRows at hq
    by_cases hv : itemValid item
    · rw [if_pos hv] at hq
      rcases List.mem_cons.mp hq with rfl | hq
      · refine ⟨?_, le_max_right _ _, ?_⟩
        · dsimp only
          by_cases hz : max ((item.score_count).getD 0) 0 = 0
          · rw [if_pos hz]
          · rw [if_neg hz]
            cases ha : item.score_avg with
            | none => simp
            | some a => simpa using h item (List.mem_cons_self ..) a ha
        · intro hzz
          dsimp only at hzz ⊢
          rw [if_pos hzz]
      · exact ih (nid + 1) (fun it hit => h it (List.mem_cons_of_mem _ hit)) q hq
    · rw [if_neg hv] at hq
      exact ih nid (fun it hit => h it (List.mem_cons_of_mem _ hit)) q hq

/-- Rows produced by `importedRows` satisfy the count invariant with no
condition on the snapshot: the count is clamped to `max(·, 0)` and the
average is zeroed exactly when the clamped count is 0, regardless of the
sign of the supplied average. -/
theorem importedRows_countInv (now : String) :
    ∀ (items : List ImportPromptItem) (nid : Nat),
      ∀ q ∈ importedRows nid now items,
        0 ≤ q.score_count ∧ (q.score_count = 0 → q.score_avg = 0) := by
  intro items
  induction items with
  | nil => intro nid q hq; simp [importedRows] at hq
  | cons item rest ih =>
    intro nid q hq
    unfold importedRows at hq
    by_cases hv : itemValid item
    · rw [if_pos hv] at hq
      rcases List.mem_cons.mp hq with rfl | hq
      · refine ⟨le_max_right _ _, ?_⟩
        intro hzz
        dsimp only at hzz ⊢
        rw [if_pos hzz]
      · exact ih (nid + 1) q hq
    · rw [if_neg hv] at hq
      exact ih nid q hq

/-- `import_prompts_json` preserves the count invariant unconditionally. -/
theorem import_countInv (s : Store) (payload : ImportPayload) (ok : Nat → Bool)
    (now : String) (h : CountInv s) :
    CountInv (import_prompts_json s payload ok now).1 := by
  unfold import_prompts_json
  cases himp : importItemsTx ok now s 0 0 (payloadItems payload) with
  | error e => exact h
  | ok pr =>
    obtain ⟨s1, n1⟩ := pr
    obtain ⟨-, h4⟩ := importItemsTx_ok ok now (payloadItems payload) s 0 0 s1 n1 himp
    intro q hq
    dsimp only at hq
    rw [h4] at hq
    rcases List.mem_append.mp hq with hq | hq
    · exact h q hq
    · exact importedRows_countInv now (payloadItems payload) s.next_prompt_id q hq

/-- `import_prompts_json` preserves the full score invariant when every
supplied snapshot average is non-negative. -/
theorem import_scoreInv (s : Store) (payload : ImportPayload) (ok : Nat → Bool)
    (now : String) (h : ScoreInv s)
    (havg : ∀ item ∈ payloadItems payload, ∀ a : ℚ, item.score_avg = some a → 0 ≤ a) :
    ScoreInv (import_prompts_json s payload ok now).1 := by
  unfold import_prompts_json
  cases himp : importItemsTx ok now s 0 0 (payloadItems payload) with
  | error e => exact h
  | ok pr =>
    obtain ⟨s1, n1⟩ := pr
    obtain ⟨-, h4⟩ := importItemsTx_ok ok now (payloadItems payload) s 0 0 s1 n1 himp
    intro q hq
    dsimp only at hq
    rw [h4] at hq
    rcases List.mem_append.mp hq with hq | hq
    · exact h q hq
    · exact importedRows_scoreInv now (payloadItems payload) s.next_prompt_id havg q hq

/-! ## Claim C2 -/

/-- C2 (amended): `score_count ≥ 0` and `score_count = 0 → score_avg = 0`
are preserved unconditionally by create/update, logUsage and import;
`score_avg ≥ 0` is preserved by create/update and logUsage, and by the
snapshot import whenever the supplied averages are non-negative — a
supplied negative `score_avg` is stored verbatim by the import when
`score_count > 0` (see the counterexample). -/
theorem C2_score_invariants :
    (∀ s input now, CountInv s → CountInv (upsert_prompt s input now).1) ∧
    (∀ s input ok now now2, CountInv s →
      CountInv (log_prompt_usage s input ok now now2).1) ∧
    (∀ s payload ok now, CountInv s →
      CountInv (import_prompts_json s payload ok now).1) ∧
    (∀ s input now, ScoreInv s → ScoreInv (upsert_prompt s input now).1) ∧
    (∀ s input ok now now2, ScoreInv s →
      ScoreInv (log_prompt_usage s input ok now now2).1) ∧
    (∀ s payload ok now, ScoreInv s →
      (∀ item ∈ payloadItems payload, ∀ a : ℚ, item.score_avg = some a → 0 ≤ a) →
      ScoreInv (import_prompts_json s payload ok now).1) :=
  ⟨upsert_countInv, log_usage_countInv, import_countInv,
   upsert_scoreInv, log_usage_scoreInv, import_scoreInv⟩

/-- C2 counterexample: importing a snapshot item with `scoreAvg = -1` and
`scoreCount = 1` stores the negative average verbatim, so "score_avg ≥ 0
after any sequence of operations" fails on the code. -/
theorem C2_counterexample :
    ¬ ScoreInv (import_prompts_json emptyStore (.wrapped [c2Item]) allOk "T").1 := by
  intro h
  have hm : (⟨1, "t", "c", [], false, -1, 1, "T", "T"⟩ : PromptRow) ∈
      (import_prompts_json emptyStore (.wrapped [c2Item]) allOk "T").1.prompts := by
    decide
  have := (h _ hm).1
  norm_num at this

/-- C2 witness: the unconditional count-invariant conjunct applied to
the negative-average snapshot itself, and the conditional average
conjunct applied to a well-scored snapshot item. -/
theorem C2_score_invariants_witness :
    CountInv (import_prompts_json emptyStore (.wrapped [c2Item]) allOk "T").1 ∧
    ScoreInv (import_prompts_json emptyStore
      (.wrapped [⟨"t", "c", none, none, some 2, some 1, none⟩]) allOk "T").1 :=
  ⟨C2_score_invariants.2.2.1 emptyStore (.wrapped [c2Item]) allOk "T"
      (fun p hp => absurd hp (by simp [emptyStore])),
   C2_score_invariants.2.2.2.2.2 emptyStore
    (.wrapped [⟨"t", "c", none, none, some 2, some 1, none⟩]) allOk "T"
    (fun p hp => absurd hp (by simp [emptyStore]))
    (by
      intro item hit a ha
      rw [show payloadItems (.wrapped [⟨"t", "c", none, none, some 2, some 1, none⟩]) =
        [⟨"t", "c", none, none, some 2, some 1, none⟩] from rfl, List.mem_singleton] at hit
      subst hit
      injection ha with ha
      rw [← ha]
      norm_num)⟩

/-- C5 witness: a snapshot with one empty-content item and one valid
item imports exactly one prompt, and the invalid item leaves no
trace. -/
theorem C5_import_transaction_witness :
    (1 : Int) = (((payloadItems c5Payload).filter itemValid).length : Int) ∧
    (import_prompts_json emptyStore c5Payload allOk "T").1.prompts =
      emptyStore.prompts ++
        importedRows emptyStore.next_prompt_id "T" (payloadItems c5Payload) :=
  (C5_import_transaction emptyStore c5Payload allOk "T").1
    (import_prompts_json emptyStore c5Payload allOk "T").1 1 rfl

/-! ## Witnesses for the upsert / usage-log claims -/

/-- C1 witness: same content and no note appends nothing; changed content
with no note appends one version noted "content updated". -/
theorem C1_update_version_policy_witness :
    (upsert_prompt oneStore ⟨some 1, "t", "c", [], false, none⟩ "T1").1.versions =
      oneStore.versions ∧
    (upsert_prompt oneStore ⟨some 1, "t", "c2", [], false, none⟩ "T1").1.versions =
      oneStore.versions ++ [⟨2, 1, "c2", "content updated", "T1"⟩] := by
  constructor
  · exact (C1_update_version_policy oneStore ⟨some 1, "t", "c", [], false, none⟩ "T1" 1
      ⟨1, "t", "c", [], false, 0, 0, "T0", "T0"⟩ rfl (by decide) (by decide) rfl).2
      ⟨rfl, by decide⟩
  · exact (C1_update_version_policy oneStore ⟨some 1, "t", "c2", [], false, none⟩ "T1" 1
      ⟨1, "t", "c", [], false, 0, 0, "T0", "T0"⟩ rfl (by decide) (by decide) rfl).1
      (Or.inl (by decide))

/-- C6 witness: rating a missing prompt fails with the foreign-key error
and leaves the store untouched. -/
theorem C6_log_and_score_commit_witness :
    log_prompt_usage emptyStore ⟨1, "v", "o", some 5⟩ allOk "T1" "T2" =
      (emptyStore, .error fkViolationErr) :=
  (C6_log_and_score_commit emptyStore ⟨1, "v", "o", some 5⟩ allOk "T1" "T2" 5 rfl
    (by omega) (by omega)).1 rfl

/-- C8 witness: rating 0 is rejected with the validation error; an absent
rating leaves the prompt rows untouched. -/
theorem C8_rating_validation_and_absent_witness :
    log_prompt_usage oneStore ⟨1, "v", "o", some 0⟩ allOk "T1" "T2" =
      (oneStore, .error ratingRangeErr) ∧
    (log_prompt_usage oneStore ⟨1, "v", "o", none⟩ allOk "T1" "T2").1.prompts =
      oneStore.prompts :=
  ⟨(C8_rating_validation_and_absent oneStore ⟨1, "v", "o", some 0⟩ allOk "T1" "T2").1 0
      rfl (by omega),
    (C8_rating_validation_and_absent oneStore ⟨1, "v", "o", none⟩ allOk "T1" "T2").2 rfl⟩

/-- C9 witness: a whitespace-only title is rejected and nothing is
written. -/
theorem C9_create_validation_witness :
    (upsert_prompt emptyStore ⟨none, "  ", "c", [], false, none⟩ "T").1 = emptyStore ∧
    ((upsert_prompt emptyStore ⟨none, "  ", "c", [], false, none⟩ "T").2 =
        .error titleEmptyErr ∨
      (upsert_prompt emptyStore ⟨none, "  ", "c", [], false, none⟩ "T").2 =
        .error contentEmptyErr) :=
  C9_create_validation emptyStore ⟨none, "  ", "c", [], false, none⟩ "T" rfl
    (Or.inl (by decide))

/-- C10 witness: logging usage against a missing prompt with no rating
still fails, leaving no orphan log. -/
theorem C10_fk_rejects_orphan_log_witness :
    log_prompt_usage emptyStore ⟨7, "v", "o", none⟩ allOk "T1" "T2" =
      (emptyStore, .error fkViolationErr) :=
  C10_fk_rejects_orphan_log emptyStore ⟨7, "v", "o", none⟩ allOk "T1" "T2" rfl rfl

/-! ## Tag-filter matching analysis (C4) -/

theorem likeMatch_cons_nil {p : Char} (ps : List Char) (hp : p ≠ '%') :
    likeMatch (p :: ps) [] = false := by
  simp [likeMatch, hp]

theorem likeMatch_cons_cons {p : Char} (ps : List Char) (hp : p ≠ '%') (c : Char)
    (ts : List Char) :
    likeMatch (p :: ps) (c :: ts) = ((p = '_' || likeCharEq p c) && likeMatch ps ts) := by
  simp [likeMatch, hp]

theorem likeMatch_percent (ps t : List Char) :
    likeMatch ('%' :: ps) t = true ↔
      ∃ t1 t2, t = t1 ++ t2 ∧ likeMatch ps t2 = true := by
  have h1 : likeMatch ('%' :: ps) t = t.tails.any (fun suf => likeMatch ps suf) := by
    simp [likeMatch]
  rw [h1, List.any_eq_true]
  constructor
  · rintro ⟨suf, hsuf, hm⟩
    rcases (List.mem_tails _ _).mp hsuf with ⟨t1, rfl⟩
    exact ⟨t1, suf, rfl, hm⟩
  · rintro ⟨t1, t2, rfl, hm⟩
    exact ⟨t2, (List.mem_tails _ _).mpr ⟨t1, rfl⟩, hm⟩

theorem likeMatch_lit_percent (pat : List Char) (hpat : '%' ∉ pat) :
    ∀ t, likeMatch (pat ++ ['%']) t = true ↔
      ∃ m r, t = m ++ r ∧ matchChars pat m = true := by
  induction pat with
  | nil =>
    intro t
    constructor
    · intro _
      exact ⟨[], t, rfl, rfl⟩
    · intro _
      rw [show (([] : List Char) ++ ['%']) = '%' :: [] from rfl, likeMatch_percent]
      exact ⟨t, [], (List.append_nil t).symm, rfl⟩
  | cons p ps ih =>
    intro t
    have hp : p ≠ '%' := fun h => hpat (h ▸ List.mem_cons_self ..)
    have hps : '%' ∉ ps := fun h => hpat (List.mem_cons_of_mem _ h)
    cases t with
    | nil =>
      constructor
      · intro h
        rw [List.cons_append, likeMatch_cons_nil _ hp] at h
        exact absurd h (by simp)
      · rintro ⟨m, r, hmr, hm⟩
        have hm0 : m = [] := by
          cases m with
          | nil => rfl
          | cons a b => simp at hmr
        subst hm0
        simp [matchChars] at hm
    | cons c ts =>
      constructor
      · intro h
        rw [List.cons_append, likeMatch_cons_cons _ hp] at h
        obtain ⟨h1, h2⟩ := Bool.and_eq_true_iff.mp h
        rcases (ih hps ts).mp h2 with ⟨m, r, rfl, hm⟩
        exact ⟨c :: m, r, rfl, by simp [matchChars, h1, hm]⟩
      · rintro ⟨m, r, hmr, hm⟩
        cases m with
        | nil => simp [matchChars] at hm
        | cons c2 m' =>
          obtain ⟨rfl, hts⟩ : c2 = c ∧ m' ++ r = ts := by
            have := hmr
            simp only [List.cons_append, List.cons.injEq] at this
            exact ⟨this.1.symm, this.2.symm⟩
          rw [List.cons_append, likeMatch_cons_cons _ hp]
          simp only [matchChars, Bool.and_eq_true] at hm
          simp [hm.1, (ih hps ts).mpr ⟨m', r, hts.symm, hm.2⟩]

theorem charFold_eq_punct (c x : Char) (hx : x.toNat < 97 ∨ 122 < x.toNat)
    (h : charFold c = x.toNat) : c = x := by
  unfold charFold at h
  split at h
  · omega
  · have h2 := congrArg Char.ofNat h
    rwa [Char.ofNat_toNat, Char.ofNat_toNat] at h2

theorem likeCharEq_quote {c : Char} (h : likeCharEq '"' c = true) : c = '"' := by
  have h2 : charFold c = ('"' : Char).toNat := by
    have := (beq_iff_eq.mp h).symm
    rwa [show charFold '"' = ('"' : Char).toNat from rfl] at this
  exact charFold_eq_punct c '"' (by left; decide) h2

theorem matchChars_append_single (q : Char) :
    ∀ (ps m : List Char), matchChars (ps ++ [q]) m = true ↔
      ∃ g c, m = g ++ [c] ∧ matchChars ps g = true ∧
        (q = '_' || likeCharEq q c) = true := by
  intro ps
  induction ps with
  | nil =>
    intro m
    cases m with
    | nil =>
      simp only [List.nil_append, matchChars]
      constructor
      · intro h; exact absurd h (by simp)
      · rintro ⟨g, c, hm, -, -⟩
        cases g <;> simp at hm
    | cons c ts =>
      cases ts with
      | nil =>
        simp only [List.nil_append, matchChars]
        constructor
        · intro h
          exact ⟨[], c, rfl, rfl, by simpa using h⟩
        · rintro ⟨g, d, hm, hg, hd⟩
          have hg0 : g = [] := by
            cases g with
            | nil => rfl
            | cons a b => simp [matchChars] at hg
          subst hg0
          simp only [List.nil_append, List.cons.injEq] at hm
          obtain ⟨rfl, -⟩ := hm
          simpa using hd
      | cons d ds =>
        simp only [List.nil_append, matchChars]
        constructor
        · intro h
          simp [matchChars] at h
        · rintro ⟨g, e, hm, hg, -⟩
          have hg0 : g = [] := by
            cases g with
            | nil => rfl
            | cons a b => simp [matchChars] at hg
          subst hg0
          simp at hm
  | cons p ps ih =>
    intro m
    cases m with
    | nil =>
      simp only [List.cons_append, matchChars]
      constructor
      · intro h; exact absurd h (by simp)
      · rintro ⟨g, c, hm, -, -⟩
        cases g <;> simp at hm
    | cons c ts =>
      rw [List.cons_append]
      simp only [matchChars, Bool.and_eq_true]
      constructor
      · rintro ⟨h1, h2⟩
        rcases (ih ts).mp h2 with ⟨g, d, rfl, hg, hd⟩
        exact ⟨c :: g, d, rfl, by simp [matchChars, h1, hg], hd⟩
      · rintro ⟨g, d, hm, hg, hd⟩
        cases g with
        | nil =>
          simp at hm
          obtain ⟨rfl, rfl⟩ := hm
          simp [matchChars] at hg
        | cons a g' =>
          simp only [List.cons_append, List.cons.injEq] at hm
          obtain ⟨rfl, rfl⟩ := hm
          simp only [matchChars, Bool.and_eq_true] at hg
          exact ⟨hg.1, (ih _).mpr ⟨g', d, rfl, hg.2, hd⟩⟩

/-- A text slice matched by the quoted-filter literal is itself a quoted
slice whose interior matches the filter. -/
theorem matched_quote_shape (f m : List Char)
    (h : matchChars ('"' :: f ++ ['"']) m = true) :
    ∃ g, m = '"' :: g ++ ['"'] ∧ matchChars f g = true := by
  cases m with
  | nil => simp [matchChars] at h
  | cons c m' =>
    rw [show (('"' :: f) ++ ['"'] : List Char) = '"' :: (f ++ ['"']) from rfl] at h
    simp only [matchChars, Bool.and_eq_true, Bool.or_eq_true] at h
    obtain ⟨h1, h2⟩ := h
    have hc : c = '"' := by
      rcases h1 with h1 | h1
      · exact absurd (of_decide_eq_true h1) (by decide)
      · exact likeCharEq_quote h1
    subst hc
    rcases (matchChars_append_single '"' f m').mp h2 with ⟨g, d, rfl, hg, hd⟩
    have hdq : d = '"' := by
      rcases Bool.or_eq_true_iff.mp hd with h3 | h3
      · exact absurd (of_decide_eq_true h3) (by decide)
      · exact likeCharEq_quote h3
    subst hdq
    exact ⟨g, rfl, hg⟩

theorem matchChars_of_foldEq :
    ∀ f g : List Char, f.map charFold = g.map charFold → matchChars f g = true := by
  intro f
  induction f with
  | nil =>
    intro g h
    cases g with
    | nil => rfl
    | cons c cs => simp at h
  | cons p ps ih =>
    intro g h
    cases g with
    | nil => simp at h
    | cons c cs =>
      simp only [List.map_cons, List.cons.injEq] at h
      simp [matchChars, likeCharEq, h.1, ih cs h.2]

theorem foldEq_of_matchChars :
    ∀ f g : List Char, '_' ∉ f → matchChars f g = true →
      g.map charFold = f.map charFold := by
  intro f
  induction f with
  | nil =>
    intro g hu h
    cases g with
    | nil => rfl
    | cons c cs => simp [matchChars] at h
  | cons p ps ih =>
    intro g hu h
    cases g with
    | nil => simp [matchChars] at h
    | cons c cs =>
      simp only [matchChars, Bool.and_eq_true, Bool.or_eq_true] at h
      obtain ⟨h1, h2⟩ := h
      have hp : p ≠ '_' := fun hh => hu (hh ▸ List.mem_cons_self ..)
      have hfold : charFold c = charFold p := by
        rcases h1 with h1 | h1
        · exact absurd (of_decide_eq_true h1) hp
        · exact (beq_iff_eq.mp h1).symm
      simp [hfold, ih cs (fun hh => hu (List.mem_cons_of_mem _ hh)) h2]

/-- Clean characters are passed through the JSON escaper verbatim. -/
theorem escape_clean (c : Char) (h : cleanTagChar c) : escapeJsonChar c = [c] := by
  obtain ⟨h1, h2, h3⟩ := h
  unfold escapeJsonChar
  rw [if_neg h1, if_neg h2,
    if_neg (fun hh => by rw [hh] at h3; exact absurd h3 (by decide)),
    if_neg (fun hh => by rw [hh] at h3; exact absurd h3 (by decide)),
    if_neg (fun hh => by rw [hh] at h3; exact absurd h3 (by decide)),
    if_neg (fun hh => by rw [hh] at h3; exact absurd h3 (by decide)),
    if_neg (fun hh => by rw [hh] at h3; exact absurd h3 (by decide)),
    if_neg (by omega)]

theorem flatMap_escape_clean :
    ∀ l : List Char, (∀ c ∈ l, cleanTagChar c) → l.flatMap escapeJsonChar = l := by
  intro l
  induction l with
  | nil => intro _; rfl
  | cons c cs ih =>
    intro h
    rw [List.flatMap_cons, escape_clean c (h c (List.mem_cons_self ..)),
      ih (fun d hd => h d (List.mem_cons_of_mem _ hd))]
    rfl

theorem encodeJsonString_clean (t : String) (h : cleanTag t) :
    encodeJsonString t = '"' :: t.data ++ ['"'] := by
  unfold encodeJsonString
  rw [flatMap_escape_clean t.data h]

/-- Two quote-free prefixes ending at a quote coincide. -/
theorem quote_split :
    ∀ a : List Char, '"' ∉ a → ∀ b x y, '"' ∉ b →
      a ++ '"' :: x = b ++ '"' :: y → a = b ∧ x = y := by
  intro a
  induction a with
  | nil =>
    intro _ b x y hb h
    cases b with
    | nil => simpa using h
    | cons d bs =>
      simp only [List.nil_append, List.cons_append, List.cons.injEq] at h
      exact absurd (h.1 ▸ List.mem_cons_self ..) hb
  | cons c as ih =>
    intro ha b x y hb h
    cases b with
    | nil =>
      simp only [List.cons_append, List.nil_append, List.cons.injEq] at h
      exact absurd (h.1 ▸ List.mem_cons_self ..) ha
    | cons d bs =>
      simp only [List.cons_append, List.cons.injEq] at h
      obtain ⟨rfl, h2⟩ := h
      obtain ⟨h3, h4⟩ := ih (fun hh => ha (List.mem_cons_of_mem _ hh)) bs x y
        (fun hh => hb (List.mem_cons_of_mem _ hh)) h2
      exact ⟨by rw [h3], h4⟩

/-- Any occurrence of a quote in `t ++ '"' :: z` with `t` quote-free is
either `t`'s closing quote or lies inside `z`. -/
theorem quote_first :
    ∀ t : List Char, '"' ∉ t → ∀ l w z, t ++ '"' :: z = l ++ '"' :: w →
      (l = t ∧ w = z) ∨ (∃ l2, l = t ++ '"' :: l2 ∧ l2 ++ '"' :: w = z) := by
  intro t
  induction t with
  | nil =>
    intro _ l w z h
    cases l with
    | nil =>
      simp only [List.nil_append, List.cons.injEq] at h
      exact Or.inl ⟨rfl, h.2.symm⟩
    | cons d ls =>
      simp only [List.nil_append, List.cons_append, List.cons.injEq] at h
      obtain ⟨hd, hz⟩ := h
      exact Or.inr ⟨ls, by rw [← hd]; rfl, hz.symm⟩
  | cons c ts ih =>
    intro ht l w z h
    cases l with
    | nil =>
      simp only [List.cons_append, List.nil_append, List.cons.injEq] at h
      exact absurd (h.1 ▸ List.mem_cons_self ..) ht
    | cons d ls =>
      simp only [List.cons_append, List.cons.injEq] at h
      obtain ⟨rfl, h2⟩ := h
      rcases ih (fun hh => ht (List.mem_cons_of_mem _ hh)) ls w z h2 with
        ⟨rfl, hw⟩ | ⟨l2, hls, hz⟩
      · exact Or.inl ⟨rfl, hw⟩
      · exact Or.inr ⟨l2, by rw [hls, List.cons_append], hz⟩

/-- Any quoted, quote-free, comma-free slice of the encoded tag body is
one of the tags. -/
theorem body_occurrence :
    ∀ (tags : List String), (∀ t ∈ tags, cleanTag t) →
      ∀ l g r : List Char, '"' ∉ g → ',' ∉ g →
        tagsBody tags ++ [']'] = l ++ '"' :: (g ++ '"' :: r) →
        ∃ t ∈ tags, t.data = g := by
  intro tags
  induction tags with
  | nil =>
    intro _ l g r hg hgc habs
    have hmem : ('"' : Char) ∈ ([']'] : List Char) := by
      rw [show (tagsBody [] ++ [']'] : List Char) = [']'] from rfl] at habs
      rw [habs]
      exact List.mem_append_right _ (List.mem_cons_self ..)
    simp at hmem
  | cons t ts ih =>
    intro h l g r hg hgc habs
    have hct : cleanTag t := h t (List.mem_cons_self ..)
    have hqt : '"' ∉ t.data := fun hq => (hct '"' hq).1 rfl
    have hbody : tagsBody (t :: ts) ++ [']'] =
        '"' :: (t.data ++ '"' :: bodyTail ts) := by
      cases ts with
      | nil => simp [tagsBody, bodyTail, encodeJsonString_clean t hct]
      | cons t2 ts2 =>
        show (encodeJsonString t ++ ',' :: tagsBody (t2 :: ts2)) ++ [']'] = _
        rw [encodeJsonString_clean t hct]
        simp [bodyTail]
    rw [hbody] at habs
    cases l with
    | nil =>
      simp only [List.nil_append, List.cons.injEq, true_and] at habs
      obtain ⟨hgt, -⟩ := quote_split t.data hqt g _ _ hg habs
      exact ⟨t, List.mem_cons_self .., hgt⟩
    | cons d l' =>
      simp only [List.cons_append, List.cons.injEq] at habs
      obtain ⟨-, habs⟩ := habs
      rcases quote_first t.data hqt l' (g ++ '"' :: r) _ habs with
        ⟨rfl, hw⟩ | ⟨l2, -, hz⟩
      · cases ts with
        | nil =>
          rw [show bodyTail ([] : List String) = [']'] from rfl] at hw
          have hmem : ('"' : Char) ∈ ([']'] : List Char) := by
            rw [← hw]
            exact List.mem_append_right _ (List.mem_cons_self ..)
          simp at hmem
        | cons t2 ts2 =>
          rw [show bodyTail (t2 :: ts2) = ',' :: (tagsBody (t2 :: ts2) ++ [']'])
            from rfl] at hw
          cases g with
          | nil =>
            simp only [List.nil_append, List.cons.injEq] at hw
            exact absurd hw.1 (by decide)
          | cons g0 gs =>
            have hg0 : g0 = ',' := by
              simp only [List.cons_append, List.cons.injEq] at hw
              exact hw.1
            exact absurd (hg0 ▸ List.mem_cons_self ..) hgc
      · cases ts with
        | nil =>
          rw [show bodyTail ([] : List String) = [']'] from rfl] at hz
          have hmem : ('"' : Char) ∈ ([']'] : List Char) := by
            rw [← hz]
            exact List.mem_append_right _ (List.mem_cons_self ..)
          simp at hmem
        | cons t2 ts2 =>
          rw [show bodyTail (t2 :: ts2) = ',' :: (tagsBody (t2 :: ts2) ++ [']'])
            from rfl] at hz
          cases l2 with
          | nil =>
            simp only [List.nil_append, List.cons.injEq] at hz
            exact absurd hz.1 (by decide)
          | cons a l3 =>
            simp only [List.cons_append, List.cons.injEq] at hz
            obtain ⟨-, hz⟩ := hz
            obtain ⟨u, hu, he⟩ := ih (fun v hv => h v (List.mem_cons_of_mem _ hv))
              l3 g r hg hgc hz.symm
            exact ⟨u, List.mem_cons_of_mem _ hu, he⟩

theorem body_contains :
    ∀ (tags : List String), (∀ t ∈ tags, cleanTag t) →
      ∀ t ∈ tags, ∃ l r, tagsBody tags = l ++ ('"' :: t.data ++ ['"']) ++ r := by
  intro tags
  induction tags with
  | nil => intro _ t ht; simp at ht
  | cons t0 ts ih =>
    intro h t ht
    rcases List.mem_cons.mp ht with rfl | ht
    · cases ts with
      | nil =>
        refine ⟨[], [], ?_⟩
        simp [tagsBody, encodeJsonString_clean t (h t (List.mem_cons_self ..))]
      | cons t2 ts2 =>
        refine ⟨[], ',' :: tagsBody (t2 :: ts2), ?_⟩
        rw [show tagsBody (t :: t2 :: ts2) =
          encodeJsonString t ++ ',' :: tagsBody (t2 :: ts2) from rfl]
        rw [encodeJsonString_clean t (h t (List.mem_cons_self ..))]
        simp
    · have hts : ts ≠ [] := by
        intro hh
        rw [hh] at ht
        simp at ht
      obtain ⟨l, r, he⟩ := ih (fun v hv => h v (List.mem_cons_of_mem _ hv)) t ht
      cases ts with
      | nil => exact absurd rfl hts
      | cons t2 ts2 =>
        refine ⟨encodeJsonString t0 ++ ',' :: l, r, ?_⟩
        rw [show tagsBody (t0 :: t2 :: ts2) =
          encodeJsonString t0 ++ ',' :: tagsBody (t2 :: ts2) from rfl, he]
        simp

theorem encode_contains (tags : List String) (h : ∀ t ∈ tags, cleanTag t)
    (t : String) (ht : t ∈ tags) :
    ∃ l r, (encode_tags tags).data = l ++ ('"' :: t.data ++ ['"']) ++ r := by
  obtain ⟨l, r, he⟩ := body_contains tags h t ht
  refine ⟨'[' :: l, r ++ [']'], ?_⟩
  show '[' :: tagsBody tags ++ [']'] = _
  rw [he]
  simp

theorem encode_occurrence (tags : List String) (h : ∀ t ∈ tags, cleanTag t)
    (l g r : List Char) (hg : '"' ∉ g) (hgc : ',' ∉ g)
    (habs : (encode_tags tags).data = l ++ '"' :: (g ++ '"' :: r)) :
    ∃ t ∈ tags, t.data = g := by
  have habs2 : '[' :: (tagsBody tags ++ [']']) = l ++ '"' :: (g ++ '"' :: r) := by
    rw [← habs]; rfl
  cases l with
  | nil =>
    simp only [List.nil_append, List.cons.injEq] at habs2
    exact absurd habs2.1 (by decide)
  | cons d l' =>
    simp only [List.cons_append, List.cons.injEq] at habs2
    exact body_occurrence tags h l' g r hg hgc habs2.2

/-- The code's `tags LIKE '%"f"%'` test, for clean tags and a clean
filter, holds exactly when some stored tag equals the filter up to ASCII
case. -/
theorem tagMatches_iff (p : PromptRow) (ft : String)
    (hct : ∀ t ∈ p.tags, cleanTag t) (hcf : cleanFilter ft) :
    tagMatches ft p = true ↔ ∃ t ∈ p.tags, asciiCaseEq ft t := by
  have hfq : '"' ∉ ft.data := fun hh => (hcf _ hh).1 rfl
  have hfp : '%' ∉ ft.data := fun hh => (hcf _ hh).2.1 rfl
  have hfu : '_' ∉ ft.data := fun hh => (hcf _ hh).2.2.1 rfl
  have hfc : ',' ∉ ft.data := fun hh => (hcf _ hh).2.2.2 rfl
  have hpatp : '%' ∉ ('"' :: ft.data ++ ['"'] : List Char) := by
    intro hh
    rcases List.mem_cons.mp hh with hh | hh
    · exact absurd hh (by decide)
    · rcases List.mem_append.mp hh with hh | hh
      · exact hfp hh
      · exact absurd (List.mem_singleton.mp hh) (by decide)
  unfold tagMatches
  rw [show (('%' :: '"' :: ft.data) ++ ['"', '%'] : List Char) =
    '%' :: (('"' :: ft.data ++ ['"']) ++ ['%']) from by simp]
  rw [likeMatch_percent]
  constructor
  · rintro ⟨t1, t2, hsplit, hm⟩
    rcases (likeMatch_lit_percent _ hpatp t2).mp hm with ⟨m, r, rfl, hmc⟩
    rcases matched_quote_shape ft.data m hmc with ⟨g, rfl, hgm⟩
    have hfold := foldEq_of_matchChars ft.data g hfu hgm
    have hgq : '"' ∉ g := by
      intro hh
      have h34 : (('"' : Char).toNat) ∈ ft.data.map charFold := by
        rw [← hfold]
        exact List.mem_map.mpr ⟨'"', hh, rfl⟩
      rcases List.mem_map.mp h34 with ⟨c, hc, hcf34⟩
      exact hfq ((charFold_eq_punct c '"' (by left; decide) hcf34) ▸ hc)
    have hgc : ',' ∉ g := by
      intro hh
      have h44 : ((',' : Char).toNat) ∈ ft.data.map charFold := by
        rw [← hfold]
        exact List.mem_map.mpr ⟨',', hh, rfl⟩
      rcases List.mem_map.mp h44 with ⟨c, hc, hcf44⟩
      exact hfc ((charFold_eq_punct c ',' (by left; decide) hcf44) ▸ hc)
    have hblob : (encode_tags p.tags).data = t1 ++ '"' :: (g ++ '"' :: r) := by
      rw [hsplit]; simp
    obtain ⟨t, htt, hgt⟩ := encode_occurrence p.tags hct t1 g r hgq hgc hblob
    refine ⟨t, htt, ?_⟩
    unfold asciiCaseEq
    rw [hgt]
    exact hfold.symm
  · rintro ⟨t, htt, hca⟩
    obtain ⟨l, r, he⟩ := encode_contains p.tags hct t htt
    refine ⟨l, ('"' :: t.data ++ ['"']) ++ r, by rw [he]; simp, ?_⟩
    refine (likeMatch_lit_percent _ hpatp _).mpr ⟨'"' :: t.data ++ ['"'], r, rfl, ?_⟩
    rw [show ('"' :: ft.data ++ ['"'] : List Char) = '"' :: (ft.data ++ ['"']) from rfl,
      show ('"' :: t.data ++ ['"'] : List Char) = '"' :: (t.data ++ ['"']) from rfl]
    simp only [matchChars, Bool.and_eq_true]
    refine ⟨by simp [likeCharEq], ?_⟩
    exact (matchChars_append_single '"' ft.data (t.data ++ ['"'])).mpr
      ⟨t.data, '"', rfl, matchChars_of_foldEq _ _ hca, by simp [likeCharEq]⟩

/-- Membership in a `list_prompts` result is membership in the filtered
table, whatever the sort mode. -/
theorem mem_list_prompts (s : Store) (se tg sb : Option String) (q : PromptRow) :
    q ∈ list_prompts s se tg sb ↔
      q ∈ s.prompts.filter (promptPasses (optParam' se) (optParam' tg)) := by
  unfold list_prompts
  split
  · exact (List.perm_insertionSort scoreOrd _).mem_iff
  · exact (List.perm_insertionSort createdOrd _).mem_iff
  · exact (List.perm_insertionSort updatedOrd _).mem_iff

/-! ## Claim C4 -/

/-- C4 (amended): with no search term, `listPrompts` with a non-empty
`tagFilter` returns a stored prompt exactly when some of its tags equals
the filter up to ASCII case — for tags free of quote, backslash and
control characters and a filter free of quote, wildcard and comma
characters.  (The code substring-matches `"filter"` against the encoded
blob with SQL `LIKE`; in particular a prompt only tagged `"ai-ml"` is
never matched by `tagFilter="ai"`, but the match is case-insensitive
rather than exact — see the counterexample.) -/
theorem C4_tag_filter_membership (s : Store) (p : PromptRow) (ft : String)
    (sb : Option String) (hp : p ∈ s.prompts) (hft : rtrim ft = ft) (hne : ft ≠ "")
    (hct : ∀ t ∈ p.tags, cleanTag t) (hcf : cleanFilter ft) :
    p ∈ list_prompts s none (some ft) sb ↔ ∃ t ∈ p.tags, asciiCaseEq ft t := by
  rw [mem_list_prompts, List.mem_filter]
  have hopt : optParam' (some ft) = some ft := by
    simp [optParam', hft, hne]
  have hpass : promptPasses (optParam' none) (optParam' (some ft)) p = tagMatches ft p := by
    rw [hopt]
    simp [promptPasses, optParam']
  rw [hpass, tagMatches_iff p ft hct hcf]
  simp [hp]

/-- C4 counterexample: the claim's "returns the prompt iff the filter
value is exactly one of its normalized tags" fails — SQL `LIKE` is
ASCII-case-insensitive, so `tagFilter="ai"` returns the prompt tagged
`"AI"` although `"ai"` is not one of its tags. -/
theorem C4_counterexample :
    (∃ q ∈ list_prompts c4Store none (some "ai") none, q.id = 1) ∧
      (∀ q ∈ c4Store.prompts, "ai" ∉ q.tags) := by
  constructor
  · decide
  · decide

/-- C4 witness: a prompt tagged `"ai-ml"` (and only that) is never
returned for `tagFilter="ai"`, while a prompt tagged `"ai"` is. -/
theorem C4_tag_filter_membership_witness :
    (¬ (⟨1, "t", "c", ["ai-ml"], false, 0, 0, "T0", "T0"⟩ : PromptRow) ∈
      list_prompts ⟨[⟨1, "t", "c", ["ai-ml"], false, 0, 0, "T0", "T0"⟩], [], [], 2, 1, 1⟩
        none (some "ai") none) ∧
    (⟨1, "t", "c", ["ai"], false, 0, 0, "T0", "T0"⟩ : PromptRow) ∈
      list_prompts ⟨[⟨1, "t", "c", ["ai"], false, 0, 0, "T0", "T0"⟩], [], [], 2, 1, 1⟩
        none (some "ai") none := by
  constructor
  · intro hmem
    have h := (C4_tag_filter_membership
      ⟨[⟨1, "t", "c", ["ai-ml"], false, 0, 0, "T0", "T0"⟩], [], [], 2, 1, 1⟩
      ⟨1, "t", "c", ["ai-ml"], false, 0, 0, "T0", "T0"⟩ "ai" none
      (by decide) (by decide) (by decide) (by decide) (by decide)).mp hmem
    revert h
    decide
  · exact (C4_tag_filter_membership
      ⟨[⟨1, "t", "c", ["ai"], false, 0, 0, "T0", "T0"⟩], [], [], 2, 1, 1⟩
      ⟨1, "t", "c", ["ai"], false, 0, 0, "T0", "T0"⟩ "ai" none
      (by decide) (by decide) (by decide) (by decide) (by decide)).mpr (by decide)

/-! ## Export / import round trip (C3) -/

/-- The version-insert loop on exported versions (all non-blank, all
fields present) inserts every one, in order, with sequential ids. -/
theorem importVersionsTx_export (pid : Nat) (now : String) :
    ∀ (vs : List ExportVersionItem) (s : Store) (k : Nat) (flag : Bool),
      (∀ v ∈ vs, rtrim v.content ≠ "") →
      importVersionsTx pid allOk now s k flag (vs.map exportVersionToImport) =
        .ok ({ s with
          versions := s.versions ++ versionRowsOfExport pid s.next_version_id vs
          next_version_id := s.next_version_id + vs.length },
          k + vs.length, flag || !vs.isEmpty) := by
  intro vs
  induction vs with
  | nil =>
    intro s k flag _
    show Except.ok (s, k, flag) = _
    simp [versionRowsOfExport]
  | cons v rest ih =>
    intro s k flag h
    have hstep : importVersionsTx pid allOk now s k flag
        ((v :: rest).map exportVersionToImport) =
      importVersionsTx pid allOk now
        (insert_prompt_version s pid v.content v.change_note v.created_at)
        (k + 1) true (rest.map exportVersionToImport) := by
      rw [List.map_cons, importVersionsTx]
      rw [if_neg (show ¬ rtrim (exportVersionToImport v).content = "" from
        h v (List.mem_cons_self ..))]
      rfl
    rw [hstep, ih _ _ _ (fun w hw => h w (List.mem_cons_of_mem _ hw))]
    have hins : (insert_prompt_version s pid v.content v.change_note
        v.created_at).versions = s.versions ++ [⟨s.next_version_id, pid, v.content,
          v.change_note, v.created_at⟩] := rfl
    have hinn : (insert_prompt_version s pid v.content v.change_note
        v.created_at).next_version_id = s.next_version_id + 1 := rfl
    simp [hins, hinn, versionRowsOfExport, List.append_assoc,
      List.singleton_append, Store.mk.injEq, Prod.mk.injEq]
    exact ⟨⟨rfl, rfl, rfl, by omega, rfl⟩, by omega⟩

/-- The per-item import loop on exported items (all well-formed) imports
every item: prompts and version blocks appended in order with sequential
ids, count incremented once per item. -/
theorem importItemsTx_export (now : String) :
    ∀ (es : List ExportPromptItem) (s : Store) (count : Int) (k : Nat),
      (∀ e ∈ es, GoodExportItem e) →
      importItemsTx allOk now s count k (es.map exportPromptToImport) =
        .ok ({ s with
          prompts := s.prompts ++ exportRows now s.next_prompt_id es
          versions := s.versions ++
            exportVersionBlocks s.next_prompt_id s.next_version_id es
          next_prompt_id := s.next_prompt_id + es.length
          next_version_id := s.next_version_id + totalVersions es },
          count + es.length) := by
  intro es
  induction es with
  | nil =>
    intro s count k _
    show Except.ok (s, count) = _
    simp [exportRows, exportVersionBlocks, totalVersions]
  | cons e rest ih =>
    intro s count k h
    obtain ⟨ht, htn, hc, htg, hvne, hvc⟩ := h e (List.mem_cons_self ..)
    have hvalid : itemValid (exportPromptToImport e) = true := by
      unfold itemValid
      rw [show (exportPromptToImport e).title = e.title from rfl,
        show (exportPromptToImport e).content = e.content from rfl, ht]
      simp only [Bool.and_eq_true, Bool.not_eq_eq_eq_not, Bool.not_false]
      constructor
      · simpa using htn
      · simpa using hc
    have hflag : (false || !e.versions.isEmpty) = true := by
      cases hvv : e.versions with
      | nil => exact absurd hvv hvne
      | cons a b => simp
    rw [List.map_cons, importItemsTx, if_neg (not_not_intro hvalid),
      if_neg (show ¬ ¬ allOk k = true from by simp [allOk])]
    dsimp only [exportPromptToImport, Option.getD_some]
    rw [importVersionsTx_export _ now e.versions _ (k + 1) false hvc]
    dsimp only
    rw [if_pos hflag]
    rw [ih _ (count + 1) _ (fun u hu => h u (List.mem_cons_of_mem _ hu))]
    simp only [Except.ok.injEq, Prod.mk.injEq, Store.mk.injEq, exportRows,
      exportVersionBlocks, totalVersions, List.append_assoc, List.length_cons,
      List.singleton_append, List.cons_append]
    refine ⟨⟨?_, ?_, ?_, ?_, ?_, ?_⟩, ?_⟩ <;> first | trivial | omega

theorem vr_promptId (pid : Nat) :
    ∀ (nv : Nat) (vs : List ExportVersionItem) (v : VersionRow),
      v ∈ versionRowsOfExport pid nv vs → v.prompt_id = pid := by
  intro nv vs
  induction vs generalizing nv with
  | nil => intro v hv; simp [versionRowsOfExport] at hv
  | cons w rest ih =>
    intro v hv
    rcases List.mem_cons.mp hv with rfl | hv
    · rfl
    · exact ih (nv + 1) v hv

theorem vr_content (pid : Nat) :
    ∀ (nv : Nat) (vs : List ExportVersionItem),
      (versionRowsOfExport pid nv vs).map (fun v => v.content) =
        vs.map (fun v => v.content) := by
  intro nv vs
  induction vs generalizing nv with
  | nil => rfl
  | cons w rest ih => simp [versionRowsOfExport, ih (nv + 1)]

theorem vr_mem (pid : Nat) :
    ∀ (nv : Nat) (vs : List ExportVersionItem) (v : VersionRow),
      v ∈ versionRowsOfExport pid nv vs → ∃ u ∈ vs, v.created_at = u.created_at := by
  intro nv vs
  induction vs generalizing nv with
  | nil => intro v hv; simp [versionRowsOfExport] at hv
  | cons w rest ih =>
    intro v hv
    rcases List.mem_cons.mp hv with rfl | hv
    · exact ⟨w, List.mem_cons_self .., rfl⟩
    · obtain ⟨u, hu, he⟩ := ih (nv + 1) v hv
      exact ⟨u, List.mem_cons_of_mem _ hu, he⟩

theorem vr_sorted (pid : Nat) :
    ∀ (nv : Nat) (vs : List ExportVersionItem), StrictDesc vs →
      List.Sorted vKeyLe (versionRowsOfExport pid nv vs) := by
  intro nv vs
  induction vs generalizing nv with
  | nil => intro _; exact List.sorted_nil
  | cons w rest ih =>
    intro hsd
    unfold StrictDesc at hsd
    rw [List.pairwise_cons] at hsd
    rw [show versionRowsOfExport pid nv (w :: rest) =
      ⟨nv, pid, w.content, w.change_note, w.created_at⟩ ::
        versionRowsOfExport pid (nv + 1) rest from rfl]
    rw [List.sorted_cons]
    refine ⟨?_, ih (nv + 1) hsd.2⟩
    intro b hb
    obtain ⟨u, hu, he⟩ := vr_mem pid (nv + 1) rest b hb
    exact Or.inl (by rw [he]; exact hsd.1 u hu)

theorem blocks_pid_lb :
    ∀ (es : List ExportPromptItem) (pid nv : Nat) (v : VersionRow),
      v ∈ exportVersionBlocks pid nv es → pid ≤ v.prompt_id := by
  intro es
  induction es with
  | nil => intro pid nv v hv; simp [exportVersionBlocks] at hv
  | cons e rest ih =>
    intro pid nv v hv
    rcases List.mem_append.mp hv with hv | hv
    · rw [vr_promptId pid nv e.versions v hv]
    · have := ih (pid + 1) (nv + e.versions.length) v hv
      omega

theorem exportRows_id_lb (now : String) :
    ∀ (es : List ExportPromptItem) (pid : Nat) (p : PromptRow),
      p ∈ exportRows now pid es → pid ≤ p.id := by
  intro es
  induction es with
  | nil => intro pid p hp; simp [exportRows] at hp
  | cons e rest ih =>
    intro pid p hp
    rcases List.mem_cons.mp hp with rfl | hp
    · exact le_refl _
    · have := ih (pid + 1) p hp
      omega

theorem filter_vr_self (pid nv : Nat) (vs : List ExportVersionItem) :
    (versionRowsOfExport pid nv vs).filter (fun v => v.prompt_id == pid) =
      versionRowsOfExport pid nv vs := by
  rw [List.filter_eq_self]
  intro v hv
  simp [vr_promptId pid nv vs v hv]

theorem filter_vr_ne (pid q nv : Nat) (hne : q ≠ pid) (vs : List ExportVersionItem) :
    (versionRowsOfExport pid nv vs).filter (fun v => v.prompt_id == q) = [] := by
  rw [List.filter_eq_nil_iff]
  intro v hv
  simp [vr_promptId pid nv vs v hv]
  omega

/-- The reimported store's listing: each new prompt's fields and version
content sequence line up with its export item. -/
theorem exportRows_summary (now : String) :
    ∀ (es : List ExportPromptItem) (pid0 nv0 : Nat),
      (∀ e ∈ es, StrictDesc e.versions) →
      (exportRows now pid0 es).map (fun p =>
        (p.title, p.content, p.tags, p.is_favorite,
          (List.insertionSort vKeyLe
            ((exportVersionBlocks pid0 nv0 es).filter
              (fun v => v.prompt_id == p.id))).map (fun v => v.content))) =
      es.map (fun e => (rtrim e.title, e.content, normalize_tags e.tags,
        e.is_favorite, e.versions.map (fun v => v.content))) := by
  intro es
  induction es with
  | nil => intro pid0 nv0 _; rfl
  | cons e rest ih =>
    intro pid0 nv0 hsd
    rw [show exportRows now pid0 (e :: rest) =
      rowOfExport pid0 now e :: exportRows now (pid0 + 1) rest from rfl]
    rw [show exportVersionBlocks pid0 nv0 (e :: rest) =
      versionRowsOfExport pid0 nv0 e.versions ++
        exportVersionBlocks (pid0 + 1) (nv0 + e.versions.length) rest from rfl]
    rw [List.map_cons, List.map_cons]
    congr 1
    · dsimp only [rowOfExport]
      rw [List.filter_append, filter_vr_self pid0 nv0 e.versions,
        List.filter_eq_nil_iff.mpr (fun v hv => by
          have := blocks_pid_lb rest (pid0 + 1) (nv0 + e.versions.length) v hv
          simp
          omega),
        List.append_nil,
        (vr_sorted pid0 nv0 e.versions (hsd e (List.mem_cons_self ..))).insertionSort_eq,
        vr_content]
    · rw [← ih (pid0 + 1) (nv0 + e.versions.length)
        (fun u hu => hsd u (List.mem_cons_of_mem _ hu))]
      apply List.map_congr_left
      intro p hp
      have hid : pid0 + 1 ≤ p.id := exportRows_id_lb now rest (pid0 + 1) p hp
      have hfilter : ((versionRowsOfExport pid0 nv0 e.versions ++
          exportVersionBlocks (pid0 + 1) (nv0 + e.versions.length) rest).filter
            (fun v => v.prompt_id == p.id)) =
          ((exportVersionBlocks (pid0 + 1) (nv0 + e.versions.length) rest).filter
            (fun v => v.prompt_id == p.id)) := by
        rw [List.filter_append, filter_vr_ne pid0 p.id nv0 (by omega) e.versions,
          List.nil_append]
      rw [hfilter]

/-- A `vKeyLe`-sorted list with pairwise-distinct timestamps is strictly
descending in `created_at`. -/
theorem sorted_nodup_strict (l : List VersionRow)
    (hs : List.Sorted vKeyLe l)
    (hn : (l.map (fun v => v.created_at)).Nodup) :
    l.Pairwise (fun a b => sLt b.created_at a.created_at) := by
  have hne : l.Pairwise (fun a b => a.created_at ≠ b.created_at) :=
    List.pairwise_map.mp hn
  have hand := hs.and hne
  refine hand.imp ?_
  intro a b hab
  rcases hab.1 with h | h
  · exact h
  · exact absurd h.1.symm hab.2

/-- Every item exported from a well-formed store is well-formed, and its
version history has strictly descending timestamps when the store's
per-prompt timestamps are distinct. -/
theorem export_prompts_good (s : Store) (hwf : StoreWF s)
    (hd : distinctVersionTimes s) :
    ∀ e ∈ export_prompts s, GoodExportItem e ∧ StrictDesc e.versions := by
  intro e he
  unfold export_prompts at he
  rcases List.mem_map.mp he with ⟨p, hp, rfl⟩
  have hps : p ∈ s.prompts :=
    (List.perm_insertionSort updatedOrd s.prompts).mem_iff.mp hp
  have hfetch_mem : ∀ w ∈ fetch_prompt_versions s p.id, w ∈ s.versions := by
    intro w hw
    have hw2 := (List.perm_insertionSort vKeyLe
      (s.versions.filter (fun v => v.prompt_id == p.id))).mem_iff.mp hw
    exact (List.mem_filter.mp hw2).1
  refine ⟨⟨hwf.title_trim p hps, hwf.title_ne p hps, hwf.content_ne p hps,
    hwf.tags_norm p hps, ?_, ?_⟩, ?_⟩
  · intro hnil
    rw [List.map_eq_nil_iff] at hnil
    have hp2 := List.perm_insertionSort vKeyLe
      (s.versions.filter (fun v => v.prompt_id == p.id))
    rw [show List.insertionSort vKeyLe
      (s.versions.filter (fun v => v.prompt_id == p.id)) =
      fetch_prompt_versions s p.id from rfl, hnil] at hp2
    exact hwf.ver_nonempty p hps hp2.symm.eq_nil
  · intro v hv
    rcases List.mem_map.mp hv with ⟨w, hw, rfl⟩
    exact hwf.ver_content w (hfetch_mem w hw)
  · unfold StrictDesc
    rw [List.pairwise_map]
    have hs : List.Sorted vKeyLe (fetch_prompt_versions s p.id) :=
      List.sorted_insertionSort vKeyLe _
    have hn : ((fetch_prompt_versions s p.id).map (fun v => v.created_at)).Nodup := by
      have hperm := (List.perm_insertionSort vKeyLe
        (s.versions.filter (fun v => v.prompt_id == p.id))).map
        (fun v => v.created_at)
      exact hperm.nodup_iff.mpr (hd p hps)
    exact sorted_nodup_strict _ hs hn

/-! ## Claim C3 -/

/-- C3 (amended): exporting a well-formed store whose per-prompt version
timestamps are pairwise distinct, wiping it, and importing the snapshot
succeeds with one imported prompt per stored prompt and yields a prompt
set whose titles, contents, tag lists, favorite flags and per-prompt
version content sequences (in `listVersions` order) are a permutation of
the original's.  Without the distinct-timestamp proviso the version
order can flip (see the counterexample). -/
theorem C3_roundtrip (s : Store) (now : String) (hwf : StoreWF s)
    (hd : distinctVersionTimes s) :
    (import_prompts_json (wipe_store s)
        (.wrapped ((export_prompts s).map exportPromptToImport)) allOk now).2 =
      .ok (s.prompts.length : Int) ∧
    List.Perm
      (storeSummary (import_prompts_json (wipe_store s)
        (.wrapped ((export_prompts s).map exportPromptToImport)) allOk now).1)
      (storeSummary s) := by
  have hgood := export_prompts_good s hwf hd
  have hwipeV : (wipe_store s).versions = [] := by
    rw [show (wipe_store s).versions =
      s.versions.filter (fun v => (fetch_prompt s v.prompt_id).isNone) from rfl]
    rw [List.filter_eq_nil_iff]
    intro v hv
    obtain ⟨p, hp, hpid⟩ := hwf.ver_owned v hv
    have h2 : (s.prompts.find? (fun q => q.id == v.prompt_id)).isSome = true :=
      List.find?_isSome.mpr ⟨p, hp, by simp [hpid]⟩
    intro h3
    rw [show fetch_prompt s v.prompt_id =
      s.prompts.find? (fun q => q.id == v.prompt_id) from rfl,
      Option.isNone_iff_eq_none] at h3
    rw [h3] at h2
    simp at h2
  have hitems := importItemsTx_export now (export_prompts s) (wipe_store s) 0 0
    (fun e he => (hgood e he).1)
  have hlen : (export_prompts s).length = s.prompts.length := by
    unfold export_prompts
    rw [List.length_map, (List.perm_insertionSort updatedOrd s.prompts).length_eq]
  have himp : import_prompts_json (wipe_store s)
      (.wrapped ((export_prompts s).map exportPromptToImport)) allOk now =
    ({ wipe_store s with
        prompts := (wipe_store s).prompts ++
          exportRows now (wipe_store s).next_prompt_id (export_prompts s)
        versions := (wipe_store s).versions ++
          exportVersionBlocks (wipe_store s).next_prompt_id
            (wipe_store s).next_version_id (export_prompts s)
        next_prompt_id := (wipe_store s).next_prompt_id + (export_prompts s).length
        next_version_id := (wipe_store s).next_version_id +
          totalVersions (export_prompts s) },
      .ok (0 + ((export_prompts s).length : Int))) := by
    unfold import_prompts_json
    rw [show payloadItems (.wrapped ((export_prompts s).map exportPromptToImport)) =
      (export_prompts s).map exportPromptToImport from rfl]
    rw [hitems]
  constructor
  · rw [himp]
    simp [hlen]
  · rw [himp]
    have hprompts : ({ wipe_store s with
        prompts := (wipe_store s).prompts ++
          exportRows now (wipe_store s).next_prompt_id (export_prompts s)
        versions := (wipe_store s).versions ++
          exportVersionBlocks (wipe_store s).next_prompt_id
            (wipe_store s).next_version_id (export_prompts s)
        next_prompt_id := (wipe_store s).next_prompt_id + (export_prompts s).length
        next_version_id := (wipe_store s).next_version_id +
          totalVersions (export_prompts s) } : Store).prompts =
        exportRows now s.next_prompt_id (export_prompts s) := by
      show (wipe_store s).prompts ++ _ = _
      rw [show (wipe_store s).prompts = [] from rfl, List.nil_append]
      rfl
    have hversions : ({ wipe_store s with
        prompts := (wipe_store s).prompts ++
          exportRows now (wipe_store s).next_prompt_id (export_prompts s)
        versions := (wipe_store s).versions ++
          exportVersionBlocks (wipe_store s).next_prompt_id
            (wipe_store s).next_version_id (export_prompts s)
        next_prompt_id := (wipe_store s).next_prompt_id + (export_prompts s).length
        next_version_id := (wipe_store s).next_version_id +
          totalVersions (export_prompts s) } : Store).versions =
        exportVersionBlocks s.next_prompt_id s.next_version_id (export_prompts s) := by
      show (wipe_store s).versions ++ _ = _
      rw [hwipeV, List.nil_append]
      rfl
    have hsum : storeSummary (({ wipe_store s with
        prompts := (wipe_store s).prompts ++
          exportRows now (wipe_store s).next_prompt_id (export_prompts s)
        versions := (wipe_store s).versions ++
          exportVersionBlocks (wipe_store s).next_prompt_id
            (wipe_store s).next_version_id (export_prompts s)
        next_prompt_id := (wipe_store s).next_prompt_id + (export_prompts s).length
        next_version_id := (wipe_store s).next_version_id +
          totalVersions (export_prompts s) } : Store)) =
        (export_prompts s).map (fun e => (rtrim e.title, e.content,
          normalize_tags e.tags, e.is_favorite,
          e.versions.map (fun v => v.content))) := by
      unfold storeSummary promptSummary fetch_prompt_versions
      rw [hprompts, hversions]
      exact exportRows_summary now (export_prompts s) s.next_prompt_id
        s.next_version_id (fun e he => (hgood e he).2)
    rw [hsum]
    have hsum1 : (export_prompts s).map (fun e => (rtrim e.title, e.content,
        normalize_tags e.tags, e.is_favorite,
        e.versions.map (fun v => v.content))) =
        (export_prompts s).map exportSummary := by
      apply List.map_congr_left
      intro e he
      obtain ⟨ht, -, -, htg, -, -⟩ := (hgood e he).1
      unfold exportSummary
      rw [ht, htg]
    have hsum2 : (export_prompts s).map exportSummary =
        (List.insertionSort updatedOrd s.prompts).map (promptSummary s) := by
      unfold export_prompts
      rw [List.map_map]
      apply List.map_congr_left
      intro p hp
      unfold exportSummary promptSummary
      simp [List.map_map]
    rw [hsum1, hsum2]
    exact (List.perm_insertionSort updatedOrd s.prompts).map (promptSummary s)

/-- C3 counterexample: with two versions sharing a `created_at`, the
round trip reverses the version content sequence — `listVersions` breaks
the timestamp tie by id, and reimport assigns fresh ids in the opposite
order.  The claim as stated (any store state, timestamps free to differ)
is therefore false. -/
theorem C3_counterexample :
    storeSummary (import_prompts_json (wipe_store c3Store)
      (.wrapped ((export_prompts c3Store).map exportPromptToImport)) allOk "T9").1 =
      [("t", "c", [], false, ["x", "y"])] ∧
    storeSummary c3Store = [("t", "c", [], false, ["y", "x"])] ∧
    ¬ List.Perm (storeSummary (import_prompts_json (wipe_store c3Store)
      (.wrapped ((export_prompts c3Store).map exportPromptToImport)) allOk "T9").1)
      (storeSummary c3Store) := by
  refine ⟨by decide, by decide, by decide⟩

/-- C3 witness: the round trip on a concrete well-formed store with
distinct version timestamps. -/
theorem C3_roundtrip_witness :
    (import_prompts_json (wipe_store c3WitnessStore)
        (.wrapped ((export_prompts c3WitnessStore).map exportPromptToImport))
        allOk "T9").2 = .ok (c3WitnessStore.prompts.length : Int) ∧
    List.Perm
      (storeSummary (import_prompts_json (wipe_store c3WitnessStore)
        (.wrapped ((export_prompts c3WitnessStore).map exportPromptToImport))
        allOk "T9").1)
      (storeSummary c3WitnessStore) :=
  C3_roundtrip c3WitnessStore "T9"
    ⟨by decide, by decide, by decide, by decide, by decide, by decide, by decide⟩
    (by decide)
